import Mathlib

/-!
# Verification of the fluxrules rule-evaluation engine

Shallow embedding of the core pattern-matching subsystem of the repository:

* `backend/app/engine/rete_network.py` — `AlphaCondition`, `ReteNetwork`
  (compile / evaluate), `ReteEngine`;
* `backend/app/engine/optimized_rete_engine.py` — `OptimizedReteEngine`'s
  linear fallback evaluator (`_evaluate_simple*`);
* `backend/app/engine/rete_engine.py` — the legacy `ReteEngine._evaluate_condition`;
* `backend/app/services/conflict_detector.py` and
  `backend/app/services/optimized_conflict_detector.py`.

Modelling conventions, used throughout and referred to from doc comments:

* JSON data is the inductive `Value` (null / bool / int / str / list / object).
  Floats are outside the model.  Objects are kept in *canonical form*: keys
  sorted, no duplicates — JSON-parsed Python dicts compare and print
  independently of key order only up to this canonicalisation, and the claims
  never depend on non-canonical objects.
* Python `==` on this domain equates booleans with their integer values
  (`True == 1`) and is otherwise structural; it is modelled by comparing
  bool→int normal forms (`normV`).
* Machine hashes (`hashlib.md5(s).hexdigest()`) are modelled by the hashed
  string `s` itself: the code only ever compares digests for equality, and the
  model ignores md5 collisions.
* Exceptions are modelled with `Except PyErr`; `try/except` blocks become
  `match` on the `Except` value.
* Python's `re.match` is modelled by a core subset of the pattern language
  (literal characters, `.`, postfix `*`, backslash-escaped literals); other
  metacharacters are treated as unsupported (a compile error).  No theorem
  depends on the behaviour of a pattern outside this subset, and the modelled
  compile errors (`*` with nothing to repeat, dangling backslash) are compile
  errors in Python's `re` as well.
-/

deriving instance DecidableEq for Except

/-- Python exception kinds that the modelled code can raise. -/
inductive PyErr where
  | typeError
  | keyError
  | reError
  deriving DecidableEq, Repr

/-- JSON-shaped Python values (events, condition values).  Objects are kept in
canonical form (sorted unique keys); floats are outside the model. -/
inductive Value where
  | null
  | bool (b : Bool)
  | int (n : Int)
  | str (s : String)
  | list (xs : List Value)
  | obj (kvs : List (String × Value))
  deriving Repr, Inhabited

namespace Value

mutual

/-- Structural (boolean) equality on `Value`. -/
def beqV : Value → Value → Bool
  | null, null => true
  | bool a, bool b => a == b
  | int a, int b => a == b
  | str a, str b => a == b
  | list xs, list ys => beqVL xs ys
  | obj xs, obj ys => beqVO xs ys
  | _, _ => false

def beqVL : List Value → List Value → Bool
  | [], [] => true
  | x :: xs, y :: ys => beqV x y && beqVL xs ys
  | _, _ => false

def beqVO : List (String × Value) → List (String × Value) → Bool
  | [], [] => true
  | (k, v) :: xs, (l, w) :: ys => k == l && beqV v w && beqVO xs ys
  | _, _ => false

end

mutual

theorem beqV_iff : ∀ a b : Value, beqV a b = true ↔ a = b
  | null, b => by cases b <;> simp [beqV]
  | bool a, b => by cases b <;> simp [beqV]
  | int a, b => by cases b <;> simp [beqV]
  | str a, b => by cases b <;> simp [beqV]
  | list xs, b => by
      cases b <;> simp [beqV]
      exact beqVL_iff xs _
  | obj xs, b => by
      cases b <;> simp [beqV]
      exact beqVO_iff xs _

theorem beqVL_iff : ∀ xs ys : List Value, beqVL xs ys = true ↔ xs = ys
  | [], ys => by cases ys <;> simp [beqVL]
  | x :: xs, ys => by
      cases ys with
      | nil => simp [beqVL]
      | cons y ys =>
          simp [beqVL, Bool.and_eq_true, beqV_iff x y, beqVL_iff xs ys]

theorem beqVO_iff : ∀ xs ys : List (String × Value), beqVO xs ys = true ↔ xs = ys
  | [], ys => by cases ys <;> simp [beqVO]
  | (k, v) :: xs, ys => by
      cases ys with
      | nil => simp [beqVO]
      | cons y ys =>
          obtain ⟨l, w⟩ := y
          simp [beqVO, Bool.and_eq_true, beqV_iff v w, beqVO_iff xs ys,
            Prod.ext_iff, and_assoc]

end

instance : BEq Value := ⟨beqV⟩

instance : DecidableEq Value := fun a b => decidable_of_iff _ (beqV_iff a b)

instance : LawfulBEq Value where
  eq_of_beq h := (beqV_iff _ _).1 h
  rfl := (beqV_iff _ _).2 rfl

mutual

/-- Bool→int normal form: Python `==` treats `True` as `1` and `False` as `0`
(numeric equality), recursively inside containers.  Two values are Python-equal
iff their normal forms are structurally equal. -/
def normV : Value → Value
  | null => null
  | bool b => int (if b then 1 else 0)
  | int n => int n
  | str s => str s
  | list xs => list (normVL xs)
  | obj kvs => obj (normVO kvs)

def normVL : List Value → List Value
  | [] => []
  | x :: xs => normV x :: normVL xs

def normVO : List (String × Value) → List (String × Value)
  | [] => []
  | (k, v) :: kvs => (k, normV v) :: normVO kvs

end

/-- Python `==` on the modelled domain (see `normV`).  Never raises. -/
def pyEq (a b : Value) : Bool := normV a == normV b

mutual

/-- Python `repr` of a value (used by `str()` on containers).  String escaping
is simplified to quote-wrapping; no claim below depends on reprs of strings
containing quote or escape characters. -/
def pyRepr : Value → String
  | null => "None"
  | bool b => if b then "True" else "False"
  | int n => toString n
  | str s => "'" ++ s ++ "'"
  | list xs => "[" ++ pyReprL xs ++ "]"
  | obj kvs => "\x7b" ++ pyReprO kvs ++ "\x7d"

def pyReprL : List Value → String
  | [] => ""
  | [x] => pyRepr x
  | x :: xs => pyRepr x ++ ", " ++ pyReprL xs

def pyReprO : List (String × Value) → String
  | [] => ""
  | [(k, v)] => "'" ++ k ++ "': " ++ pyRepr v
  | (k, v) :: kvs => "'" ++ k ++ "': " ++ pyRepr v ++ ", " ++ pyReprO kvs

end

/-- Python `str()` of a value: identity on strings, `repr` otherwise. -/
def pyStr : Value → String
  | str s => s
  | v => pyRepr v

mutual

/-- Python `<` on bool→int-normalised values.  Numbers compare numerically,
strings lexicographically by code point, lists lexicographically via the
`==`-scan-then-`<` protocol of `list.__lt__`; every other combination raises
`TypeError` (including `None` and dicts). -/
def pyLtN : Value → Value → Except PyErr Bool
  | int a, int b => .ok (decide (a < b))
  | str s, str t => .ok (decide (s < t))
  | list xs, list ys => lexLt xs ys
  | _, _ => .error .typeError

def lexLt : List Value → List Value → Except PyErr Bool
  | [], [] => .ok false
  | [], _ :: _ => .ok true
  | _ :: _, [] => .ok false
  | x :: xs, y :: ys => if x == y then lexLt xs ys else pyLtN x y

end

mutual

/-- Python `<=` on bool→int-normalised values (same shape as `pyLtN`). -/
def pyLeN : Value → Value → Except PyErr Bool
  | int a, int b => .ok (decide (a ≤ b))
  | str s, str t => .ok (!decide (t < s))
  | list xs, list ys => lexLe xs ys
  | _, _ => .error .typeError

def lexLe : List Value → List Value → Except PyErr Bool
  | [], [] => .ok true
  | [], _ :: _ => .ok true
  | _ :: _, [] => .ok false
  | x :: xs, y :: ys => if x == y then lexLe xs ys else pyLeN x y

end

/-- Does `needle` occur as a contiguous substring of `hay`? (Python `str in str`.) -/
def charsContain (hay needle : List Char) : Bool :=
  if needle.isPrefixOf hay then true
  else match hay with
    | [] => false
    | _ :: t => charsContain t needle

/-- A value that Python cannot hash (raises `TypeError` as a dict key /
set element): lists and dicts. -/
def unhashable : Value → Bool
  | list _ => true
  | obj _ => true
  | _ => false

/-- Python `x in container` on bool→int-normalised values.

* list container: membership via `==`;
* string container: substring test; a non-string left operand raises `TypeError`;
* dict container: key membership (keys are strings here); an unhashable left
  operand raises `TypeError`;
* any other container raises `TypeError` (not iterable). -/
def pyInN : Value → Value → Except PyErr Bool
  | x, list ys => .ok (ys.contains x)
  | str x, str s => .ok (charsContain s.data x.data)
  | _, str _ => .error .typeError
  | x, obj kvs =>
      if unhashable x then .error .typeError
      else .ok (kvs.any fun kv => x == str kv.1)
  | _, _ => .error .typeError

end Value

/-! ## Regular expressions (core subset of Python `re`, prefix-anchored `re.match`) -/

/-- Regex atoms of the modelled core subset. -/
inductive RAtom where
  | lit (c : Char)
  | dot
  deriving DecidableEq, Repr

def RAtom.matches : RAtom → Char → Bool
  | .lit c, d => c == d
  | .dot, _ => true

/-- Metacharacters outside the modelled subset; treated as pattern-compile
errors so that no theorem silently assigns them a meaning Python disagrees with. -/
def rUnsupported (c : Char) : Bool :=
  c == '^' || c == '$' || c == '[' || c == ']' || c == '(' || c == ')' ||
  c == '{' || c == '}' || c == '+' || c == '?' || c == '|'

/-- Compile a pattern into (atom, starred) tokens.  A leading `*` ("nothing to
repeat") and a dangling backslash are compile errors, as in Python `re`. -/
def rcompile : List Char → Except PyErr (List (RAtom × Bool))
  | [] => .ok []
  | '*' :: _ => .error .reError
  | '\\' :: [] => .error .reError
  | '\\' :: d :: '*' :: rest => (rcompile rest).map ((RAtom.lit d, true) :: ·)
  | '\\' :: d :: rest => (rcompile rest).map ((RAtom.lit d, false) :: ·)
  | c :: '*' :: rest =>
      if rUnsupported c then .error .reError
      else (rcompile rest).map (((if c == '.' then RAtom.dot else RAtom.lit c), true) :: ·)
  | c :: rest =>
      if rUnsupported c then .error .reError
      else (rcompile rest).map (((if c == '.' then RAtom.dot else RAtom.lit c), false) :: ·)

/-- Match tokens against a *prefix* of the string (`re.match` is anchored at
the start only; `bool(...)` of the result needs just existence). -/
def rmatchT : List (RAtom × Bool) → List Char → Bool
  | [], _ => true
  | (_, false) :: _, [] => false
  | (a, false) :: ts, c :: s => a.matches c && rmatchT ts s
  | (a, true) :: ts, s =>
      rmatchT ts s ||
        match s with
        | [] => false
        | c :: s' => a.matches c && rmatchT ((a, true) :: ts) s'
  termination_by ts s => (ts.length, s.length)

/-- `bool(re.match(pattern, s))` for the modelled pattern subset. -/
def reMatchPy (pattern s : String) : Except PyErr Bool :=
  (rcompile pattern.data).map (fun ts => rmatchT ts s.data)

/-! ## Events and operators -/

open Value

/-- An event: a JSON object, top-level keys unique (Python dict). -/
abbrev Event := List (String × Value)

/-- `event.get(field)`: `None` for a missing key, for a `None`-valued key, and
for a `None` field name (`event.get(None)` is a miss, not an error). -/
def eventGet (e : Event) (f : Option String) : Value :=
  match f with
  | none => .null
  | some s =>
      match e.find? (fun kv => kv.1 == s) with
      | some kv => kv.2
      | none => .null

/-- `field in event`: key presence, independent of the stored value. -/
def eventHas (e : Event) (f : String) : Bool := e.any (fun kv => kv.1 == f)

/-- The closed operator set of `rete_network.Operator`. -/
inductive Operator where
  | EQ | NE | GT | GE | LT | LE
  | IN | NOT_IN | CONTAINS | STARTS_WITH | ENDS_WITH | REGEX
  | EXISTS | NOT_EXISTS
  deriving DecidableEq, Repr

/-- `Operator(op_str)`: enum lookup by value string; `None` on `ValueError`. -/
def Operator.ofString : String → Option Operator
  | "==" => some .EQ
  | "!=" => some .NE
  | ">" => some .GT
  | ">=" => some .GE
  | "<" => some .LT
  | "<=" => some .LE
  | "in" => some .IN
  | "not_in" => some .NOT_IN
  | "contains" => some .CONTAINS
  | "starts_with" => some .STARTS_WITH
  | "ends_with" => some .ENDS_WITH
  | "regex" => some .REGEX
  | "exists" => some .EXISTS
  | "not_exists" => some .NOT_EXISTS
  | _ => none

/-- `operator.value`: the string of each enum member. -/
def Operator.toStr : Operator → String
  | .EQ => "==" | .NE => "!=" | .GT => ">" | .GE => ">=" | .LT => "<" | .LE => "<="
  | .IN => "in" | .NOT_IN => "not_in" | .CONTAINS => "contains"
  | .STARTS_WITH => "starts_with" | .ENDS_WITH => "ends_with" | .REGEX => "regex"
  | .EXISTS => "exists" | .NOT_EXISTS => "not_exists"

/-- Body of the `try:` block shared (textually identical operator arms) by
`AlphaCondition.evaluate`, `OptimizedReteEngine._evaluate_simple_condition` and
(without the surrounding `except`) `ReteEngine._evaluate_condition`:
the raw Python comparison for one operator, errors not yet caught.

`EXISTS`/`NOT_EXISTS` are handled before the `try:` in every caller; they fall
into the final `else: return False` arm here. -/
def compareRaw (op : Operator) (eventValue value : Value) : Except PyErr Bool :=
  match op with
  | .EQ => .ok (pyEq eventValue value)
  | .NE => .ok (!pyEq eventValue value)
  | .GT => pyLtN (normV value) (normV eventValue)
  | .GE => pyLeN (normV value) (normV eventValue)
  | .LT => pyLtN (normV eventValue) (normV value)
  | .LE => pyLeN (normV eventValue) (normV value)
  | .IN => pyInN (normV eventValue) (normV value)
  | .NOT_IN => (pyInN (normV eventValue) (normV value)).map (!·)
  | .CONTAINS => pyInN (normV value) (normV eventValue)
  | .STARTS_WITH => .ok ((pyStr value).data.isPrefixOf (pyStr eventValue).data)
  | .ENDS_WITH => .ok ((pyStr value).data.isSuffixOf (pyStr eventValue).data)
  | .REGEX =>
      match value with
      | .str p => reMatchPy p (pyStr eventValue)
      | _ => .error .typeError
  | .EXISTS | .NOT_EXISTS => .ok false

/-! ## `AlphaCondition` (rete_network.py) -/

/-- `AlphaCondition`: one atomic test `(field, operator, value)`. -/
structure ACond where
  field : String
  operator : Operator
  value : Value
  deriving DecidableEq, Repr

/-- `AlphaCondition.evaluate(event)`: `EXISTS`/`NOT_EXISTS` first, then the
`event_value is None` guard, then the `try:` comparison with every exception
collapsed to `False`. -/
def ACond.evaluate (c : ACond) (event : Event) : Bool :=
  let eventValue := eventGet event (some c.field)
  if c.operator = .EXISTS then eventHas event c.field
  else if c.operator = .NOT_EXISTS then !eventHas event c.field
  else if eventValue = .null then false
  else
    match compareRaw c.operator eventValue c.value with
    | .ok b => b
    | .error _ => false

/-- `str(value)` as used by `AlphaCondition.__hash__` (the md5 digest taken of
it for lists/dicts is modelled by the string itself). -/
def hashStrV (v : Value) : String := pyStr v

/-- Python-dict key identification for the `_alpha_nodes` table: equal
`__hash__` (built from `(field, operator.value, str-or-md5 of value)`) *and*
equal `__eq__` (field, operator and Python-`==` of values). -/
def keyMatch (c d : ACond) : Bool :=
  c.field == d.field && c.operator == d.operator &&
    pyEq c.value d.value && hashStrV c.value == hashStrV d.value

/-! ## The condition DSL -/

/-- A condition-DSL node as the engines receive it.

* `empty` — a falsy condition (`{}` or `None`): `rule.get("condition_dsl", {})`
  misses, or an empty dict appears as a child.
* `cond` — `{"type": "condition", ...}`; `field`/`op` are `.get` results
  (`none` for a missing key; a key explicitly set to JSON `null` is not
  distinguished from a missing one by this model), `value` defaults to `null`.
* `group` — `{"type": "group", ...}`; `gop` is the raw `"op"` entry
  (`none` when missing), `children` the `"children"` list (missing → `[]`).
* `unknown` — a non-empty dict whose `"type"` is neither `"condition"`
  nor `"group"`. -/
inductive Cond where
  | empty
  | cond (field op : Option String) (value : Value)
  | group (gop : Option String) (children : List Cond)
  | unknown

/-- `OptimizedReteEngine._evaluate_simple_condition` without its `try/except`:
dispatch on the raw operator string; an unrecognised operator (including
`exists`/`not_exists`, absent from this dispatch) returns `ok false`
(`else: logger.warning(...); return False`). -/
def simpleCompareRaw (op : Option String) (eventValue value : Value) : Except PyErr Bool :=
  match op with
  | some o =>
      match Operator.ofString o with
      | some p =>
          if p = .EXISTS ∨ p = .NOT_EXISTS then .ok false
          else compareRaw p eventValue value
      | none => .ok false
  | none => .ok false

/-- `OptimizedReteEngine._evaluate_simple_condition`: `event.get(field)`,
the `None` guard, then the `try:`-wrapped comparison. -/
def simpleCondAtom (field op : Option String) (value : Value) (event : Event) : Bool :=
  let eventValue := eventGet event field
  if eventValue = .null then false
  else
    match simpleCompareRaw op eventValue value with
    | .ok b => b
    | .error _ => false

mutual

/-- `OptimizedReteEngine._evaluate_condition`: the linear fallback evaluator.
Falsy condition → `True`; unknown `"type"` → `False`. -/
def evalCond : Cond → Event → Bool
  | .empty, _ => true
  | .cond f o v, ev => simpleCondAtom f o v ev
  | .group gop cs, ev =>
      -- `_evaluate_group_condition`: `op = condition.get("op", "AND")`
      let op := gop.getD "AND"
      if cs.isEmpty then true
      else if op == "AND" then evalCondAll cs ev
      else if op == "OR" then evalCondAny cs ev
      else if op == "NOT" then
        match cs with
        | c :: _ => !evalCond c ev
        | [] => true
      else false
  | .unknown, _ => false

def evalCondAll : List Cond → Event → Bool
  | [], _ => true
  | c :: cs, ev => evalCond c ev && evalCondAll cs ev

def evalCondAny : List Cond → Event → Bool
  | [], _ => false
  | c :: cs, ev => evalCond c ev || evalCondAny cs ev

end

/-- The raw comparisons of the legacy `ReteEngine._evaluate_condition`
(rete_engine.py): eight operators, *no* `try/except` — errors propagate.
An unrecognised operator string returns `False`. -/
def legacyCompare (op : String) (eventValue value : Value) : Except PyErr Bool :=
  if op == ">" then compareRaw .GT eventValue value
  else if op == ">=" then compareRaw .GE eventValue value
  else if op == "<" then compareRaw .LT eventValue value
  else if op == "<=" then compareRaw .LE eventValue value
  else if op == "==" then compareRaw .EQ eventValue value
  else if op == "!=" then compareRaw .NE eventValue value
  else if op == "in" then compareRaw .IN eventValue value
  else if op == "contains" then compareRaw .CONTAINS eventValue value
  else .ok false

mutual

/-- Legacy `ReteEngine._evaluate_condition` (rete_engine.py, lines 137–175):
bracket access for `"type"`/`"field"`/`"op"` (`KeyError` when missing), the
`None` guard, raw comparisons with no exception handler, and groups limited to
`AND`/`OR` (everything else falls to `return False`). -/
def legacyEval : Cond → Event → Except PyErr Bool
  | .empty, _ => .error .keyError
  | .unknown, _ => .ok false
  | .cond f o v, ev => do
      let fld ← match f with | some s => pure s | none => Except.error PyErr.keyError
      let op ← match o with | some s => pure s | none => Except.error PyErr.keyError
      let eventValue := eventGet ev (some fld)
      if eventValue = .null then pure false
      else legacyCompare op eventValue v
  | .group gop cs, ev => do
      let op ← match gop with | some s => pure s | none => Except.error PyErr.keyError
      if op == "AND" then legacyAll cs ev
      else if op == "OR" then legacyAny cs ev
      else pure false

/-- `all(self._evaluate_condition(child, event) for child in children)`:
short-circuits, propagating the first error. -/
def legacyAll : List Cond → Event → Except PyErr Bool
  | [], _ => .ok true
  | c :: cs, ev => do
      let b ← legacyEval c ev
      if b then legacyAll cs ev else pure false

def legacyAny : List Cond → Event → Except PyErr Bool
  | [], _ => .ok false
  | c :: cs, ev => do
      let b ← legacyEval c ev
      if b then pure true else legacyAny cs ev

end

/-! ## The RETE network (rete_network.py)

Beta nodes live in an arena (`List BetaN`) in creation order; Python object
references become arena indices.  `AlphaNode.successors`, `BetaNode.children`
and the per-node transient memories (`alpha_memory`, `beta_memory` between the
reset and the write of one evaluation) carry no observable information — the
evaluation reads only the per-cycle `alpha_results` map and the freshly
computed beta memories — so they are not stored. -/

/-- `TerminalNode` (the mutable `is_activated` flag and the `rule_data`
back-pointer, used only for explanations, are not stored). -/
structure Terminal where
  ruleId : Int
  ruleName : String
  rulePriority : Int
  ruleAction : Value
  deriving DecidableEq, Repr

/-- A beta node.  `terminal` is set only on the root beta of a rule's tree. -/
structure BetaN where
  joinType : String
  parentAlphas : List Nat
  parentBetas : List Nat
  negated : Bool
  terminal : Option Terminal
  deriving DecidableEq, Repr

instance : Inhabited BetaN := ⟨⟨"", [], [], false, none⟩⟩

instance : Inhabited ACond := ⟨⟨"", .EQ, .null⟩⟩

/-- Builder state: the parts of `ReteNetwork` that `compile` constructs.
`shared` is `_stats["shared_conditions"]`, which `_clear_network` does *not*
reset.  The field index `_field_to_alphas` is recovered from `alphas` (one
entry per alpha node, appended at creation under its field) by `fieldIdx`. -/
structure BSt where
  alphas : List ACond
  betas : List BetaN
  shared : Nat
  terminals : List (Int × Terminal)
  deriving DecidableEq, Repr

/-- `_field_to_alphas[f]`: the alpha nodes with field `f`, in creation order. -/
def fieldIdx (alphas : List ACond) (f : String) : List Nat :=
  (List.range alphas.length).filter fun i => (alphas.getD i ⟨"", .EQ, .null⟩).field == f

/-- Python `str.upper()` on the ASCII operator strings (character map; the
byte-positional `String.toUpper` does not reduce in the kernel). -/
def strUpper (s : String) : String := ⟨s.data.map Char.toUpper⟩

/-- Python-dict lookup in `_alpha_nodes`: index of the first (unique) entry
whose key matches. -/
def alphaLookup (ac : ACond) : List ACond → Option Nat
  | [] => none
  | d :: ds =>
      if keyMatch ac d then some 0
      else (alphaLookup ac ds).map (· + 1)

/-- Mark the beta at index `i` negated (`child_betas[0].is_negated = True`). -/
def setNegAt (l : List BetaN) (i : Nat) : List BetaN :=
  match l.get? i with
  | some b => l.set i { b with negated := true }
  | none => l

/-- Link the terminal onto the beta at index `i` (`beta_node.terminal = terminal`). -/
def setTerminalAt (l : List BetaN) (i : Nat) (t : Terminal) : List BetaN :=
  match l.get? i with
  | some b => l.set i { b with terminal := some t }
  | none => l

mutual

/-- `_build_condition_network` / `_build_alpha_condition` /
`_build_group_condition`: build the subnetwork of one condition, returning the
index of its beta node (`none` where the source returns `None`: falsy or
unknown-typed nodes, missing/empty field or op, unknown operator string,
groups none of whose children built). -/
def buildCond : Cond → BSt → Option Nat × BSt
  | .empty, st => (none, st)
  | .unknown, st => (none, st)
  | .cond f o v, st =>
      match f, o with
      | some fld, some opStr =>
          if fld == "" || opStr == "" then (none, st)   -- `if not field or not op_str`
          else
            match Operator.ofString opStr with
            | none => (none, st)                        -- unknown operator: warn, None
            | some p =>
                let ac : ACond := ⟨fld, p, v⟩
                match alphaLookup ac st.alphas with
                | some i =>
                    -- reuse the shared alpha node, bump the counter
                    let st := { st with shared := st.shared + 1 }
                    (some st.betas.length,
                     { st with betas := st.betas ++ [⟨"AND", [i], [], false, none⟩] })
                | none =>
                    let i := st.alphas.length
                    let st := { st with alphas := st.alphas ++ [ac] }
                    (some st.betas.length,
                     { st with betas := st.betas ++ [⟨"AND", [i], [], false, none⟩] })
      | _, _ => (none, st)
  | .group gop cs, st =>
      let op := strUpper (gop.getD "AND")
      if cs.isEmpty then
        -- empty group: pass-through beta, always true
        (some st.betas.length, { st with betas := st.betas ++ [⟨"AND", [], [], false, none⟩] })
      else
        let res := buildChildren cs st
        match res.1, res.2 with
        | [], st' => (none, st')
        | r0 :: rest, st' =>
            if op == "NOT" then
              (some r0, { st' with betas := setNegAt st'.betas r0 })
            else
              (some st'.betas.length,
               { st' with betas := st'.betas ++ [⟨op, [], r0 :: rest, false, none⟩] })

def buildChildren : List Cond → BSt → List Nat × BSt
  | [], st => ([], st)
  | c :: cs, st =>
      let rc := buildCond c st
      let rcs := buildChildren cs rc.2
      (match rc.1 with
       | some r => r :: rcs.1
       | none => rcs.1, rcs.2)

end

/-- Rule dicts as the engines receive them: every component a `.get`-style
`Option` (a missing `"id"` is what makes `rule["id"]` raise). -/
structure RuleInput where
  idK : Option Int
  nameK : Option String
  priorityK : Option Int
  actionK : Option Value
  conditionK : Option Cond

/-- Truthiness of `condition_dsl` (`if condition_dsl:`). -/
def condTruthy : Cond → Bool
  | .empty => false
  | _ => true

/-- Python dict assignment `self._terminal_nodes[rule_id] = terminal`. -/
def dictInsert (l : List (Int × Terminal)) (k : Int) (v : Terminal) : List (Int × Terminal) :=
  if l.any (fun kv => kv.1 == k) then
    l.map (fun kv => if kv.1 == k then (k, v) else kv)
  else l ++ [(k, v)]

/-- `_add_rule`: build the terminal (with the `.get` defaults of the source),
register it, build the condition subnetwork when truthy, link the terminal to
the returned root beta.  `rule["id"]` raises `KeyError` when absent. -/
def addRule (rule : RuleInput) (st : BSt) : Except PyErr BSt :=
  match rule.idK with
  | none => .error .keyError
  | some rid =>
      let t : Terminal :=
        ⟨rid, rule.nameK.getD ("Rule " ++ toString rid),
         rule.priorityK.getD 0, rule.actionK.getD (.str "")⟩
      let st := { st with terminals := dictInsert st.terminals rid t }
      let condDsl := rule.conditionK.getD .empty
      if condTruthy condDsl then
        let rc := buildCond condDsl st
        match rc.1 with
        | some r => .ok { rc.2 with betas := setTerminalAt rc.2.betas r t }
        | none => .ok rc.2
      else .ok st

/-- The `for rule in rules:` loop of `compile`; an exception aborts the loop,
leaving the partial state for the `except` handler. -/
def addAllRules : List RuleInput → BSt → Option PyErr × BSt
  | [], st => (none, st)
  | r :: rs, st =>
      match addRule r st with
      | .ok st' => addAllRules rs st'
      | .error e => (some e, st)

/-! ## Rule-set hash and `ReteNetwork.compile` -/

mutual

/-- Canonical serialisation of a condition node (stand-in for the
`json.dumps(..., sort_keys=True, default=str)` fragment; only digest
*equality* is ever observed, so determinism is all that is used). -/
def encodeCond : Cond → String
  | .empty => "\x7b\x7d"
  | .unknown => "\x7b...\x7d"
  | .cond f o v =>
      "\x7bc:" ++ (f.getD "~") ++ "|" ++ (o.getD "~") ++ "|" ++ Value.pyRepr v ++ "\x7d"
  | .group gop cs => "\x7bg:" ++ (gop.getD "~") ++ "|" ++ encodeCondL cs ++ "\x7d"

def encodeCondL : List Cond → String
  | [] => ""
  | c :: cs => encodeCond c ++ ";" ++ encodeCondL cs

end

/-- Canonical serialisation of one rule dict (keys in sorted order,
absent keys omitted, as `json.dumps(..., sort_keys=True)` would). -/
def encodeRule (r : RuleInput) : String :=
  "\x7b" ++
    (match r.actionK with | some a => "action:" ++ Value.pyRepr a ++ "," | none => "") ++
    (match r.conditionK with | some c => "condition_dsl:" ++ encodeCond c ++ "," | none => "") ++
    (match r.idK with | some i => "id:" ++ toString i ++ "," | none => "") ++
    (match r.nameK with | some n => "name:" ++ n ++ "," | none => "") ++
    (match r.priorityK with | some p => "priority:" ++ toString p | none => "") ++
  "\x7d"

/-- `_calculate_hash`: md5 of the canonical dump, modelled by the dump itself
(never the empty string, which is the cleared-network sentinel). -/
def calcHash (rules : List RuleInput) : String :=
  "[" ++ String.intercalate "," (rules.map encodeRule) ++ "]"

/-- The persistent `ReteNetwork` state.  The alpha/beta/terminal counts of
`_stats` are recovered as lengths; `shared` is the `shared_conditions`
counter, which `_clear_network` leaves untouched. -/
structure Network where
  alphas : List ACond
  betas : List BetaN
  terminals : List (Int × Terminal)
  shared : Nat
  rulesHash : String
  deriving DecidableEq, Repr

def emptyNetwork : Network := ⟨[], [], [], 0, ""⟩

/-- `_clear_network` as a builder start state: tables cleared, stats kept. -/
def clearedSt (net : Network) : BSt := ⟨[], [], net.shared, []⟩

/-- The `try:` body of `compile` (clear, add every rule, install the hash),
before the `except` handler. -/
def ReteNetwork.compileBody (net : Network) (rules : List RuleInput) : Except PyErr Network :=
  match addAllRules rules (clearedSt net) with
  | (none, st) => .ok ⟨st.alphas, st.betas, st.terminals, st.shared, calcHash rules⟩
  | (some e, _) => .error e

/-- `ReteNetwork.compile`: hash short-circuit, then the guarded rebuild.  On
any exception the network is cleared again and `False` is returned (the
exception is *not* re-raised). -/
def ReteNetwork.compile (net : Network) (rules : List RuleInput) : Network × Bool :=
  let h := calcHash rules
  if h == net.rulesHash then (net, true)
  else
    match addAllRules rules (clearedSt net) with
    | (none, st) => (⟨st.alphas, st.betas, st.terminals, st.shared, h⟩, true)
    | (some _, st) => (⟨[], [], [], st.shared, ""⟩, false)

/-! ## `ReteNetwork.evaluate`

The alpha phase activates the field-indexed alphas for the event's keys and
then every remaining alpha; since the results are keyed by node identity and
both loops call the same `activate`, the phase amounts to evaluating every
alpha node once.  The beta phase's memoised recursion (`evaluate_beta`)
evaluates parents before children; compiled networks only ever reference
parent betas at smaller arena indices (children are built before the joins
above them), so a left-to-right fold computes the same memories. -/

/-- One beta node's value before negation: fold of the parents' results. -/
def evalNodeCore (b : BetaN) (aRes : Nat → Bool) (mems : List Bool) : Bool :=
  let results := b.parentAlphas.map aRes ++ b.parentBetas.map (fun j => mems.getD j false)
  if results.isEmpty then true
  else if b.joinType == "AND" then results.all id
  else if b.joinType == "OR" then results.any id
  else false

/-- `BetaNode.evaluate`: parent fold, then the `is_negated` inversion. -/
def evalNode (b : BetaN) (aRes : Nat → Bool) (mems : List Bool) : Bool :=
  let r := evalNodeCore b aRes mems
  if b.negated then !r else r

def computeMemsAux (aRes : Nat → Bool) (acc : List Bool) : List BetaN → List Bool
  | [] => acc
  | b :: bs => computeMemsAux aRes (acc ++ [evalNode b aRes acc]) bs

/-- Beta memories after the beta phase, one per arena entry. -/
def computeMems (betas : List BetaN) (aRes : Nat → Bool) : List Bool :=
  computeMemsAux aRes [] betas

/-- `hash(frozenset(event.items()))` succeeds iff every value is hashable. -/
def eventHashable (ev : Event) : Bool := ev.all fun kv => !Value.unhashable kv.2

/-- The alpha-results map: every alpha node evaluated once. -/
def alphaResultsOf (net : Network) (ev : Event) : Nat → Bool := fun i =>
  match net.alphas.get? i with
  | some a => a.evaluate ev
  | none => false

/-- Phase 3 collection: terminals of the betas whose memory is true, in arena
order (before the priority sort). -/
def matchedOf (net : Network) (ev : Event) : List Terminal :=
  let mems := computeMems net.betas (alphaResultsOf net ev)
  (net.betas.zip mems).filterMap fun bm =>
    match bm.1.terminal with
    | some t => if bm.2 then some t else none
    | none => none

/-- Stable insertion of `matched_terminals.sort(key=priority, reverse=True)`:
keep earlier elements first among equal priorities. -/
def insDesc (t : Terminal) : List Terminal → List Terminal
  | [] => [t]
  | u :: us => if t.rulePriority < u.rulePriority then u :: insDesc t us else t :: u :: us

/-- Python's stable `list.sort(key=lambda t: t.rule_priority, reverse=True)`. -/
def pySortDesc (l : List Terminal) : List Terminal := l.foldr insDesc []

/-- `ReteNetwork.evaluate`: the event-hash step (which raises `TypeError` on
unhashable values), the alpha/beta phases, terminal collection, and the
priority-descending sort. -/
def ReteNetwork.evaluate (net : Network) (ev : Event) : Except PyErr (List Terminal) :=
  if !eventHashable ev then .error .typeError
  else .ok (pySortDesc (matchedOf net ev))

/-! ## The two evaluation paths of `OptimizedReteEngine.evaluate` -/

/-- One entry of `matched_rules`. -/
structure MatchedRule where
  id : Int
  name : String
  priority : Int
  action : Value
  deriving DecidableEq, Repr

/-- The parts of the result dict the claims quantify over (`explanations`,
`dry_run` and the timing/stats entries are not modelled). -/
structure EvalResult where
  matchedRules : List MatchedRule
  executionOrder : List Int
  deriving DecidableEq, Repr

def resultOfTerminals (ts : List Terminal) : EvalResult :=
  ⟨ts.map fun t => ⟨t.ruleId, t.ruleName, t.rulePriority, t.ruleAction⟩,
   ts.map fun t => t.ruleId⟩

/-- The `use_rete=True` path on a fresh engine: `load_rules` compiles the
network from scratch, `ReteEngine.evaluate` runs it.  (When the compile fails,
`ReteEngine.evaluate` retries the compile once — which only bumps the
unobserved `shared` counter again — and then evaluates the still-empty
network; a single compile gives the same result.) -/
def reteEvalPath (rules : List RuleInput) (ev : Event) : Except PyErr EvalResult :=
  let net := (ReteNetwork.compile emptyNetwork rules).1
  (ReteNetwork.evaluate net ev).map resultOfTerminals

def requireK {α : Type} : Option α → Except PyErr α
  | some a => .ok a
  | none => .error .keyError

/-- The loop of `_evaluate_simple`: bracket access to `rule["condition_dsl"]`
first, and to `id`/`name`/`priority`/`action` only for matching rules. -/
def simpleEvalAux : List RuleInput → Event → List MatchedRule → List Int →
    Except PyErr (List MatchedRule × List Int)
  | [], _, ms, ord => .ok (ms, ord)
  | r :: rs, ev, ms, ord => do
      let c ← requireK r.conditionK
      if evalCond c ev then do
        let rid ← requireK r.idK
        let nm ← requireK r.nameK
        let pr ← requireK r.priorityK
        let ac ← requireK r.actionK
        simpleEvalAux rs ev (ms ++ [⟨rid, nm, pr, ac⟩]) (ord ++ [rid])
      else simpleEvalAux rs ev ms ord

/-- The `use_rete=False` path: `OptimizedReteEngine._evaluate_simple`. -/
def simpleEvalPath (rules : List RuleInput) (ev : Event) : Except PyErr EvalResult :=
  (simpleEvalAux rules ev [] []).map fun p => ⟨p.1, p.2⟩

/-! ## Conflict detectors (conflict_detector.py, optimized_conflict_detector.py)

Rules here are the persisted rows the detectors query.  The condition tree is
carried as its canonical serialisation `json.dumps(condition_dsl,
sort_keys=True)` — the only thing either detector computes from it — and
`_hash_condition`'s md5 digest of that string is modelled by the string
itself.  Conflict dicts are carried without their `description` strings
(derived text). -/

structure DbRule where
  id : Int
  name : String
  group : Option String
  priority : Int
  enabled : Bool
  conditionCanon : String
  deriving DecidableEq, Repr

/-- `RuleCreate` as the conflict checks read it. -/
structure NewRule where
  name : String
  group : Option String
  priority : Int
  conditionCanon : String
  deriving DecidableEq, Repr

inductive Conflict where
  /-- create/update check, duplicate condition: `existing_rule_{id,name}`. -/
  | dupExisting (id : Int) (name : String)
  /-- create/update check, priority collision. -/
  | prioExisting (id : Int) (name : String) (group : String) (priority : Int)
  /-- whole-corpus duplicate condition: `rule1_*`, `rule2_*`. -/
  | dupPair (id1 : Int) (name1 : String) (id2 : Int) (name2 : String)
  /-- whole-corpus priority collision of the optimized detector (pairs). -/
  | prioPair (id1 : Int) (name1 : String) (id2 : Int) (name2 : String)
      (group : String) (priority : Int)
  /-- whole-corpus priority collision of the basic detector (one conflict
  per `(group, priority)` bucket, listing every rule in it). -/
  | prioGroup (group : String) (priority : Int) (rules : List (Int × String))
  deriving DecidableEq, Repr

/-- `rule.group or "default"`. -/
def groupKeyOf (r : DbRule) : String := r.group.getD "default"

/-- `ConflictDetector.check_new_rule_conflicts`: linear scan of the enabled
rules; `None` groups collapse to `"default"` on *both* sides of the
priority comparison. -/
def basicCheckNewRuleConflicts (db : List DbRule) (nr : NewRule) : List Conflict :=
  let existing := db.filter fun r => r.enabled
  let dups := existing.filterMap fun r =>
    if nr.conditionCanon == r.conditionCanon then some (.dupExisting r.id r.name) else none
  let prios := existing.filterMap fun r =>
    if groupKeyOf r == nr.group.getD "default" && r.priority == nr.priority then
      some (.prioExisting r.id r.name (nr.group.getD "default") nr.priority)
    else none
  dups ++ prios

/-- Python dict assignment `m[k] = v` on an insertion-ordered assoc list. -/
def pyDictSet {κ ν : Type} [BEq κ] (m : List (κ × ν)) (k : κ) (v : ν) : List (κ × ν) :=
  if m.any (fun kv => kv.1 == k) then
    m.map (fun kv => if kv.1 == k then (k, v) else kv)
  else m ++ [(k, v)]

/-- The `condition_hashes` cache map built on a cache miss:
`condition_map[rule_hash] = {"id": .., "name": ..}` — later rules with the
same hash overwrite earlier ones. -/
def condMapBuild (db : List DbRule) : List (String × (Int × String)) :=
  (db.filter fun r => r.enabled).foldl
    (fun m r => pyDictSet m r.conditionCanon (r.id, r.name)) []

/-- `OptimizedConflictDetector.check_new_rule_conflicts` with a cold conflict
cache.  The priority collision is an indexed query
`Rule.group == new_group` — SQL equality, under which a stored `NULL` group
never matches the string `"default"`. -/
def optCheckNewRuleConflicts (db : List DbRule) (nr : NewRule) : List Conflict :=
  let newGroup := nr.group.getD "default"
  let prioConf :=
    match db.find? (fun r => r.enabled && r.group == some newGroup
        && r.priority == nr.priority) with
    | some r => [Conflict.prioExisting r.id r.name newGroup nr.priority]
    | none => []
  let dupConf :=
    match (condMapBuild db).find? (fun kv => kv.1 == nr.conditionCanon) with
    | some kv => [Conflict.dupExisting kv.2.1 kv.2.2]
    | none => []
  prioConf ++ dupConf

/-- `_detect_duplicate_conditions`: each later duplicate is paired with the
*first* rule (in scan order) that had the condition. -/
def basicDupScan : List DbRule → List (String × (Int × String)) → List Conflict
  | [], _ => []
  | r :: rs, seen =>
      match seen.find? (fun kv => kv.1 == r.conditionCanon) with
      | some kv => .dupPair kv.2.1 kv.2.2 r.id r.name :: basicDupScan rs seen
      | none => basicDupScan rs (seen ++ [(r.conditionCanon, (r.id, r.name))])

/-- Keys of a Python dict built by bucket insertion: first-occurrence order. -/
def firstKeys {α κ : Type} [BEq κ] (key : α → κ) (l : List α) : List κ :=
  l.foldl (fun acc x => if acc.any (· == key x) then acc else acc ++ [key x]) []

/-- `_detect_priority_collisions`: one conflict per `(group, priority)` bucket
with more than one rule, listing the bucket. -/
def basicPrioScan (rules : List DbRule) : List Conflict :=
  (firstKeys (fun r => (groupKeyOf r, r.priority)) rules).filterMap fun k =>
    let bucket := rules.filter fun r => (groupKeyOf r, r.priority) == k
    if bucket.length > 1 then
      some (.prioGroup k.1 k.2 (bucket.map fun r => (r.id, r.name)))
    else none

/-- `ConflictDetector.detect_all_conflicts`: duplicates then priority buckets. -/
def basicDetectAll (db : List DbRule) : List Conflict :=
  let rules := db.filter fun r => r.enabled
  basicDupScan rules [] ++ basicPrioScan rules

/-- `for i, rule1 in enumerate(rules_list): for rule2 in rules_list[i+1:]`. -/
def allPairs {α : Type} : List α → List (α × α)
  | [] => []
  | x :: xs => (xs.map fun y => (x, y)) ++ allPairs xs

/-- Bucket a rule list by `key` (Python dict: first-occurrence key order,
append-ordered buckets) and emit every in-bucket pair, as both index loops of
`detect_all_conflicts` do. -/
def bucketAllPairs {K : Type} [BEq K] (key : DbRule → K) (rules : List DbRule) :
    List (DbRule × DbRule) :=
  ((firstKeys key rules).map fun k =>
    let bucket := rules.filter fun r => key r == k
    if bucket.length > 1 then allPairs bucket else []).flatten

/-- `OptimizedConflictDetector.detect_all_conflicts`: bucket by
`(group or "default", priority)` and by condition hash, then emit every pair
inside each bucket.  (The source nests the priority index `group → priority →
rules`; flattening to pair keys changes only the emission order of the
conflict list, never its members.  The group/priority recorded on a pair
conflict are read off the first pair member here; they equal the source's
bucket key by construction.) -/
def optDetectAll (db : List DbRule) : List Conflict :=
  let rules := db.filter fun r => r.enabled
  (bucketAllPairs (fun r => (groupKeyOf r, r.priority)) rules).map
    (fun p => Conflict.prioPair p.1.id p.1.name p.2.id p.2.name (groupKeyOf p.1) p.1.priority)
  ++ (bucketAllPairs (fun r => r.conditionCanon) rules).map
    (fun p => Conflict.dupPair p.1.id p.1.name p.2.id p.2.name)

/-- Order-insensitive identity of a whole-corpus pair conflict: its type, the
unordered pair of rule ids, and (for priority collisions) the bucket key. -/
inductive CKey where
  | dup (lo hi : Int)
  | prio (lo hi : Int) (group : String) (priority : Int)
  | other
  deriving DecidableEq, Repr

def pairNorm (i j : Int) : Int × Int := if i ≤ j then (i, j) else (j, i)

def conflictKey : Conflict → CKey
  | .dupPair i _ j _ => .dup (pairNorm i j).1 (pairNorm i j).2
  | .prioPair i _ j _ g p => .prio (pairNorm i j).1 (pairNorm i j).2 g p
  | _ => .other

def conflictKeys (cs : List Conflict) : List CKey := cs.map conflictKey

/-! ## Generic facts about the beta-memory fold -/

theorem computeMemsAux_append (aRes : Nat → Bool) (acc : List Bool) (bs : List BetaN) :
    ∃ ext, computeMemsAux aRes acc bs = acc ++ ext := by
  induction bs generalizing acc with
  | nil => exact ⟨[], by simp [computeMemsAux]⟩
  | cons b bs ih =>
      obtain ⟨ext, hext⟩ := ih (acc ++ [evalNode b aRes acc])
      exact ⟨evalNode b aRes acc :: ext, by simp [computeMemsAux, hext]⟩

theorem computeMemsAux_length (aRes : Nat → Bool) (acc : List Bool) (bs : List BetaN) :
    (computeMemsAux aRes acc bs).length = acc.length + bs.length := by
  induction bs generalizing acc with
  | nil => simp [computeMemsAux]
  | cons b bs ih => simp [computeMemsAux, ih]; omega

theorem computeMems_length (betas : List BetaN) (aRes : Nat → Bool) :
    (computeMems betas aRes).length = betas.length := by
  simp [computeMems, computeMemsAux_length]

theorem computeMemsAux_split (aRes : Nat → Bool) (acc : List Bool) (bs cs : List BetaN) :
    computeMemsAux aRes acc (bs ++ cs) = computeMemsAux aRes (computeMemsAux aRes acc bs) cs := by
  induction bs generalizing acc with
  | nil => simp [computeMemsAux]
  | cons b bs ih => simp [computeMemsAux, ih]

/-- Memories of a prefix of the arena do not depend on the suffix. -/
theorem computeMems_take (betas ext : List BetaN) (aRes : Nat → Bool) :
    (computeMems (betas ++ ext) aRes).take betas.length = computeMems betas aRes := by
  simp only [computeMems, computeMemsAux_split]
  obtain ⟨e, he⟩ := computeMemsAux_append aRes (computeMemsAux aRes [] betas) ext
  rw [he, List.take_append_of_le_length (by simp [computeMemsAux_length])]
  rw [List.take_of_length_le (by simp [computeMemsAux_length])]

/-- The value computed for arena slot `i`: `evalNode` of that node over the
memories of the earlier slots. -/
theorem computeMems_getD (betas : List BetaN) (aRes : Nat → Bool) (i : Nat)
    (hi : i < betas.length) :
    (computeMems betas aRes).getD i false =
      evalNode (betas.getD i default) aRes ((computeMems betas aRes).take i) := by
  induction betas using List.reverseRecOn with
  | nil => simp at hi
  | append_singleton bs b ih =>
      rcases Nat.lt_or_ge i bs.length with hlt | hge
      · have htake : (computeMems (bs ++ [b]) aRes).take i = (computeMems bs aRes).take i := by
          rw [← computeMems_take bs [b] aRes, List.take_take, min_eq_left (Nat.le_of_lt hlt)]
        have hgd : (computeMems (bs ++ [b]) aRes).getD i false = (computeMems bs aRes).getD i false := by
          rw [← computeMems_take bs [b] aRes]
          rw [List.getD_eq_getElem?_getD, List.getD_eq_getElem?_getD,
            List.getElem?_take_of_lt hlt]
        rw [hgd, htake, List.getD_append _ _ _ _ hlt]
        exact ih hlt
      · have hieq : i = bs.length := by
          simp only [List.length_append, List.length_singleton] at hi; omega
        subst hieq
        have h1 : computeMems (bs ++ [b]) aRes = computeMems bs aRes ++ [evalNode b aRes (computeMems bs aRes)] := by
          simp [computeMems, computeMemsAux_split, computeMemsAux]
        rw [h1]
        have hlen : (computeMems bs aRes).length = bs.length := computeMems_length bs aRes
        rw [List.getD_eq_getElem?_getD, List.getElem?_append_right (by omega),
          List.take_append_of_le_length (by omega), List.take_of_length_le (by omega)]
        simp [hlen, List.getD_append_right, List.getD_eq_getElem?_getD]

/-! ## Facts about the stable priority sort -/

theorem insDesc_perm (t : Terminal) (l : List Terminal) :
    (insDesc t l).Perm (t :: l) := by
  induction l with
  | nil => simp [insDesc]
  | cons u us ih =>
      by_cases h : t.rulePriority < u.rulePriority
      · simpa [insDesc, h] using ((ih.cons u).trans (List.Perm.swap t u us))
      · simp [insDesc, h]

theorem pySortDesc_perm (l : List Terminal) : (pySortDesc l).Perm l := by
  induction l with
  | nil => simp [pySortDesc]
  | cons t ts ih =>
      have : pySortDesc (t :: ts) = insDesc t (pySortDesc ts) := rfl
      rw [this]
      exact (insDesc_perm t (pySortDesc ts)).trans (ih.cons t)

theorem insDesc_sorted (t : Terminal) (l : List Terminal)
    (h : l.Pairwise (fun a b => b.rulePriority ≤ a.rulePriority)) :
    (insDesc t l).Pairwise (fun a b => b.rulePriority ≤ a.rulePriority) := by
  induction l with
  | nil => simp [insDesc]
  | cons u us ih =>
      rcases List.pairwise_cons.1 h with ⟨hu, hus⟩
      by_cases hc : t.rulePriority < u.rulePriority
      · simp only [insDesc, hc, if_true]
        refine List.pairwise_cons.2 ⟨?_, ih hus⟩
        intro b hb
        have hb2 := (List.Perm.mem_iff (insDesc_perm t us)).1 hb
        rcases List.mem_cons.1 hb2 with hb3 | hb3
        · subst hb3; omega
        · exact hu b hb3
      · simp only [insDesc, hc, if_false]
        refine List.pairwise_cons.2 ⟨?_, h⟩
        intro b hb
        rcases List.mem_cons.1 hb with hb3 | hb3
        · subst hb3; omega
        · exact le_trans (hu b hb3) (by omega)

theorem pySortDesc_sorted (l : List Terminal) :
    (pySortDesc l).Pairwise (fun a b => b.rulePriority ≤ a.rulePriority) := by
  induction l with
  | nil => simp [pySortDesc]
  | cons t ts ih => exact insDesc_sorted t (pySortDesc ts) ih

/-- Stability: inserting an element leaves every other priority class alone
and puts the new element at the head of its own class. -/
theorem insDesc_filter (t : Terminal) (l : List Terminal) (p : Int) :
    (insDesc t l).filter (fun u => u.rulePriority == p) =
      (if t.rulePriority == p then [t] else []) ++ l.filter (fun u => u.rulePriority == p) := by
  induction l with
  | nil => by_cases h : t.rulePriority == p <;> simp [insDesc, h]
  | cons u us ih =>
      by_cases hc : t.rulePriority < u.rulePriority
      · by_cases hu : u.rulePriority == p
        · have ht : ¬ (t.rulePriority == p) := by
            simp only [beq_iff_eq] at hu ⊢; omega
          simp [insDesc, hc, hu, ih, ht]
        · simp [insDesc, hc, hu, ih]
      · by_cases hu : u.rulePriority == p <;>
          by_cases ht : t.rulePriority == p <;>
            simp [insDesc, hc, hu, ht]

theorem pySortDesc_filter (l : List Terminal) (p : Int) :
    (pySortDesc l).filter (fun u => u.rulePriority == p) =
      l.filter (fun u => u.rulePriority == p) := by
  induction l with
  | nil => simp [pySortDesc]
  | cons t ts ih =>
      have h1 : pySortDesc (t :: ts) = insDesc t (pySortDesc ts) := rfl
      rw [h1, insDesc_filter]
      by_cases ht : t.rulePriority == p <;> simp [ht, ih]

/-- Sorting an already priority-descending list is the identity (so the RETE
sort leaves a priority-ordered rule scan untouched). -/
theorem pySortDesc_of_sorted (l : List Terminal)
    (h : l.Pairwise (fun a b => b.rulePriority ≤ a.rulePriority)) :
    pySortDesc l = l := by
  induction l with
  | nil => rfl
  | cons t ts ih =>
      rcases List.pairwise_cons.1 h with ⟨ht, hts⟩
      have h1 : pySortDesc (t :: ts) = insDesc t (pySortDesc ts) := rfl
      rw [h1, ih hts]
      cases ts with
      | nil => rfl
      | cons u us =>
          have : ¬ (t.rulePriority < u.rulePriority) := by
            have := ht u (by simp); omega
          simp [insDesc, this]

/-! ## Claim C2 -/

/-- The ordering the spec claims: priority descending with ties broken by rule
id ascending (pairwise, boolean). -/
def prioIdSorted : List Terminal → Bool
  | [] => true
  | a :: rest =>
      rest.all (fun b => decide (b.rulePriority < a.rulePriority) ||
        (a.rulePriority == b.rulePriority && decide (a.ruleId ≤ b.ruleId))) &&
      prioIdSorted rest

/-- C2 (counterexample): two always-matching rules with equal priority,
compiled in id order 2, 1.  `ReteNetwork.evaluate` returns them in network
insertion order 2, 1 — the sort has no id tiebreak — refuting "ties broken by
rule id ascending". -/
theorem C2_counterexample :
    ReteNetwork.evaluate
        (ReteNetwork.compile emptyNetwork
          [⟨some 2, some "b", some 5, some (.str ""), some (.cond (some "amount") (some ">") (.int 100))⟩,
           ⟨some 1, some "a", some 5, some (.str ""), some (.cond (some "amount") (some ">") (.int 100))⟩]).1
        [("amount", Value.int 500)]
      = .ok [⟨2, "b", 5, .str ""⟩, ⟨1, "a", 5, .str ""⟩] ∧
    prioIdSorted [⟨2, "b", 5, Value.str ""⟩, (⟨1, "a", 5, Value.str ""⟩ : Terminal)] = false :=
  ⟨by decide, by decide⟩

/-- C2 (amended): the matched-terminal list of `ReteNetwork.evaluate` is
sorted by rule priority descending and is a *stable* permutation of the
phase-3 collection order (arena = network insertion order): each priority
class keeps that order.  There is no id tiebreak. -/
theorem C2_amended_sort (net : Network) (ev : Event) (l : List Terminal)
    (h : ReteNetwork.evaluate net ev = .ok l) :
    l.Pairwise (fun a b => b.rulePriority ≤ a.rulePriority) ∧
    l.Perm (matchedOf net ev) ∧
    ∀ p : Int, l.filter (fun u => u.rulePriority == p) =
      (matchedOf net ev).filter (fun u => u.rulePriority == p) := by
  unfold ReteNetwork.evaluate at h
  cases hb : eventHashable ev
  · rw [hb] at h; simp at h
  · rw [hb] at h
    simp only [Bool.not_true, Bool.false_eq_true, if_false] at h
    have hl : l = pySortDesc (matchedOf net ev) := by
      injection h with h'
      exact h'.symm
    subst hl
    exact ⟨pySortDesc_sorted _, pySortDesc_perm _, fun p => pySortDesc_filter _ p⟩

/-- C2 (witness): the amended theorem applied to the concrete network above. -/
theorem C2_witness :
    ([⟨2, "b", 5, .str ""⟩, (⟨1, "a", 5, Value.str ""⟩ : Terminal)] : List Terminal).Pairwise
      (fun a b => b.rulePriority ≤ a.rulePriority) :=
  (C2_amended_sort
    (ReteNetwork.compile emptyNetwork
      [⟨some 2, some "b", some 5, some (.str ""), some (.cond (some "amount") (some ">") (.int 100))⟩,
       ⟨some 1, some "a", some 5, some (.str ""), some (.cond (some "amount") (some ">") (.int 100))⟩]).1
    [("amount", Value.int 500)]
    [⟨2, "b", 5, .str ""⟩, ⟨1, "a", 5, .str ""⟩] (by decide)).1

/-! ## Claim C3 -/

/-- C3 (counterexample): the claim includes the fallback evaluator
`ReteEngine._evaluate_condition` (rete_engine.py), which has *no* exception
handler: `event_value > value` on an int event value and a string condition
value raises `TypeError` to the caller instead of yielding `false`. -/
theorem C3_counterexample :
    legacyEval (.cond (some "amount") (some ">") (Value.str "x")) [("amount", Value.int 5)]
      = .error .typeError := by decide

/-- C3 (amended): on the protected evaluators — `AlphaCondition.evaluate`
(RETE path) and `OptimizedReteEngine._evaluate_simple_condition` (the
optimized engine's linear path) — every comparison exception is swallowed into
`false`, and an unknown operator string yields `false`; the legacy
`ReteEngine._evaluate_condition` is excluded (see the counterexample). -/
theorem C3_amended_swallow :
    (∀ (c : ACond) (ev : Event) (e : PyErr),
        compareRaw c.operator (eventGet ev (some c.field)) c.value = .error e →
        c.evaluate ev = false) ∧
    (∀ (f o : Option String) (v : Value) (ev : Event) (e : PyErr),
        simpleCompareRaw o (eventGet ev f) v = .error e →
        simpleCondAtom f o v ev = false) ∧
    (∀ (f : Option String) (o : String) (v : Value) (ev : Event),
        Operator.ofString o = none → simpleCondAtom f (some o) v ev = false) := by
  refine ⟨?_, ?_, ?_⟩
  · intro c ev e h
    by_cases h1 : c.operator = .EXISTS
    · rw [h1] at h; simp [compareRaw] at h
    · by_cases h2 : c.operator = .NOT_EXISTS
      · rw [h2] at h; simp [compareRaw] at h
      · by_cases h3 : eventGet ev (some c.field) = .null
        · simp [ACond.evaluate, h1, h2, h3]
        · simp [ACond.evaluate, h1, h2, h3, h]
  · intro f o v ev e h
    unfold simpleCondAtom
    by_cases h3 : eventGet ev f = .null
    · simp [h3]
    · simp [h3, h]
  · intro f o v ev h
    unfold simpleCondAtom simpleCompareRaw
    by_cases h3 : eventGet ev f = .null
    · simp [h3]
    · simp [h3, h]

/-- C3 (witness): a type-error comparison and an invalid regex, both collapsed
to `false` by `AlphaCondition.evaluate`. -/
theorem C3_witness :
    ACond.evaluate ⟨"amount", .GT, Value.str "x"⟩ [("amount", Value.int 5)] = false ∧
    ACond.evaluate ⟨"phone", .REGEX, Value.str "*"⟩ [("phone", Value.str "123")] = false :=
  ⟨C3_amended_swallow.1 ⟨"amount", .GT, Value.str "x"⟩ [("amount", Value.int 5)] .typeError (by decide),
   C3_amended_swallow.1 ⟨"phone", .REGEX, Value.str "*"⟩ [("phone", Value.str "123")] .reError (by decide)⟩

/-! ## Claim C4 -/

/-- C4 (refuting theorem): an event with an array value makes
`ReteNetwork.evaluate` raise `TypeError` out of
`hash(frozenset(event.items()))` — an error *does* cross the event-evaluation
boundary, although the spec admits array-valued events and forbids exactly
this. -/
theorem C4_unhashable_event_raises :
    ReteNetwork.evaluate
        (ReteNetwork.compile emptyNetwork
          [⟨some 1, some "r", some 0, some (.str ""),
            some (.cond (some "amount") (some ">") (.int 1000))⟩]).1
        [("tags", Value.list [Value.int 1])]
      = .error .typeError := by decide

/-! ## Claim C5 -/

/-- C5 (counterexample): a rule dict without an `"id"` key makes the compile
body raise `KeyError`, but `ReteNetwork.compile` *catches* it and returns
`False` with a cleared network — the exception is not re-raised as the claim
states. -/
theorem C5_counterexample :
    ReteNetwork.compileBody emptyNetwork [⟨none, none, none, none, none⟩] = .error .keyError ∧
    ReteNetwork.compile emptyNetwork [⟨none, none, none, none, none⟩] = (⟨[], [], [], 0, ""⟩, false) :=
  ⟨by decide, by decide⟩

/-- C5 (amended): when network construction raises, the network is fully
cleared (alpha table, beta list, terminal table, field index empty, rules hash
reset) — but `compile` returns `False` instead of re-raising the exception. -/
theorem C5_amended_clear_no_reraise (net : Network) (rules : List RuleInput)
    (e : PyErr) (stp : BSt)
    (hne : calcHash rules ≠ net.rulesHash)
    (h : addAllRules rules (clearedSt net) = (some e, stp)) :
    ∃ n', ReteNetwork.compile net rules = (n', false) ∧
      n'.alphas = [] ∧ n'.betas = [] ∧ n'.terminals = [] ∧ n'.rulesHash = "" ∧
      ∀ f, fieldIdx n'.alphas f = [] := by
  refine ⟨⟨[], [], [], stp.shared, ""⟩, ?_, rfl, rfl, rfl, rfl, fun f => by simp [fieldIdx]⟩
  unfold ReteNetwork.compile
  rw [if_neg (fun hc => hne (beq_iff_eq.mp hc)), h]

/-- C5 (witness): the amended theorem at the concrete no-id rule. -/
theorem C5_witness :
    ∃ n', ReteNetwork.compile emptyNetwork [⟨none, none, none, none, none⟩] = (n', false) ∧
      n'.alphas = [] ∧ n'.betas = [] ∧ n'.terminals = [] ∧ n'.rulesHash = "" ∧
      ∀ f, fieldIdx n'.alphas f = [] :=
  C5_amended_clear_no_reraise emptyNetwork [⟨none, none, none, none, none⟩]
    .keyError ⟨[], [], 0, []⟩ (by decide) (by decide)

/-! ## Claim C7 -/

/-- C7: if a compile succeeded, the installed hash is the rule set's hash, and
compiling the same rule set again is a no-op: the guard
`rules_hash == self._rules_hash` short-circuits, returning the identical
network (hash and all) without rebuilding. -/
theorem C7_recompile_noop (net : Network) (rules : List RuleInput)
    (h : (ReteNetwork.compile net rules).2 = true) :
    (ReteNetwork.compile net rules).1.rulesHash = calcHash rules ∧
    ReteNetwork.compile ((ReteNetwork.compile net rules).1) rules
      = ((ReteNetwork.compile net rules).1, true) := by
  by_cases hm : calcHash rules = net.rulesHash
  · have h1 : ReteNetwork.compile net rules = (net, true) := by
      unfold ReteNetwork.compile
      rw [if_pos (beq_iff_eq.mpr hm)]
    rw [h1]
    refine ⟨hm.symm, ?_⟩
    unfold ReteNetwork.compile
    rw [if_pos (beq_iff_eq.mpr hm)]
  · cases he : addAllRules rules (clearedSt net) with
    | mk oe st =>
        cases oe with
        | none =>
            have h1 : ReteNetwork.compile net rules
                = (⟨st.alphas, st.betas, st.terminals, st.shared, calcHash rules⟩, true) := by
              unfold ReteNetwork.compile
              rw [if_neg (fun hc => hm (beq_iff_eq.mp hc)), he]
            rw [h1]
            refine ⟨rfl, ?_⟩
            unfold ReteNetwork.compile
            rw [if_pos (beq_iff_eq.mpr rfl)]
        | some e =>
            exfalso
            have h1 : ReteNetwork.compile net rules = (⟨[], [], [], st.shared, ""⟩, false) := by
              unfold ReteNetwork.compile
              rw [if_neg (fun hc => hm (beq_iff_eq.mp hc)), he]
            rw [h1] at h
            simp at h

/-- C7 (witness): compile-twice on a concrete one-rule set. -/
theorem C7_witness :
    ReteNetwork.compile
        ((ReteNetwork.compile emptyNetwork
          [⟨some 1, some "r", some 1, some (.str "a"),
            some (.cond (some "x") (some "==") (.int 1))⟩]).1)
        [⟨some 1, some "r", some 1, some (.str "a"),
          some (.cond (some "x") (some "==") (.int 1))⟩]
      = ((ReteNetwork.compile emptyNetwork
          [⟨some 1, some "r", some 1, some (.str "a"),
            some (.cond (some "x") (some "==") (.int 1))⟩]).1, true) :=
  (C7_recompile_noop emptyNetwork
    [⟨some 1, some "r", some 1, some (.str "a"),
      some (.cond (some "x") (some "==") (.int 1))⟩] (by decide)).2

/-! ## Claim C8 -/

/-- C8 (refuting theorem): with an existing enabled rule whose group is `NULL`
and priority 10, creating a rule with group `null` and priority 10 — the
spec's scenario — is reported as a `priority_collision` by the basic detector
(both groups collapse to `"default"`), but the optimized detector's indexed
query compares the SQL column `group` with the *string* `"default"`, which a
stored `NULL` never equals, so it reports nothing. -/
theorem C8_null_group_optimized_miss :
    basicCheckNewRuleConflicts [⟨1, "r1", none, 10, true, "c1"⟩] ⟨"r2", none, 10, "c2"⟩
      = [.prioExisting 1 "r1" "default" 10] ∧
    optCheckNewRuleConflicts [⟨1, "r1", none, 10, true, "c1"⟩] ⟨"r2", none, 10, "c2"⟩
      = [] :=
  ⟨by decide, by decide⟩

/-! ## Claims C1 and C9: counterexamples -/

/-- C1 (counterexample): a rule whose condition is `exists` on a present field
matches through the RETE path but not through
`_evaluate_simple_condition`, whose operator dispatch has no
`exists`/`not_exists` arm (unknown operator → `False`): the two paths differ. -/
theorem C1_counterexample :
    reteEvalPath
        [⟨some 1, some "r", some 0, some (.str ""), some (.cond (some "a") (some "exists") .null)⟩]
        [("a", Value.int 1)]
      = .ok ⟨[⟨1, "r", 0, .str ""⟩], [1]⟩ ∧
    simpleEvalPath
        [⟨some 1, some "r", some 0, some (.str ""), some (.cond (some "a") (some "exists") .null)⟩]
        [("a", Value.int 1)]
      = .ok ⟨[], []⟩ :=
  ⟨by decide, by decide⟩

/-- C9 (counterexample): three enabled rules with identical conditions.  The
basic detector pairs each later duplicate with the *first-scanned* holder of
the condition, so the set of reported pairs depends on the scan order: rules
1 and 2 are reported as a pair in one order but not in the reverse order. -/
theorem C9_counterexample :
    ([⟨1, "a", none, 1, true, "c"⟩, ⟨2, "b", none, 2, true, "c"⟩,
      ⟨3, "cc", none, 3, true, "c"⟩] : List DbRule).Perm
      [⟨3, "cc", none, 3, true, "c"⟩, ⟨2, "b", none, 2, true, "c"⟩,
       ⟨1, "a", none, 1, true, "c"⟩] ∧
    CKey.dup 1 2 ∈ conflictKeys (basicDetectAll
      [⟨1, "a", none, 1, true, "c"⟩, ⟨2, "b", none, 2, true, "c"⟩,
       ⟨3, "cc", none, 3, true, "c"⟩]) ∧
    CKey.dup 1 2 ∉ conflictKeys (basicDetectAll
      [⟨3, "cc", none, 3, true, "c"⟩, ⟨2, "b", none, 2, true, "c"⟩,
       ⟨1, "a", none, 1, true, "c"⟩]) :=
  ⟨by decide, by decide, by decide⟩

/-! ## Claim C10 -/

/-- C10: a field present with value `null` hits the `event_value is None`
guard: every comparison operator (and every operator string on the simple
path) yields `false` — `field == null` and `field != v` included — while
`exists` on the same field is `true`. -/
theorem C10_null_value_false (f : String) (op : Operator) (v : Value) (ev : Event)
    (h1 : op ≠ .EXISTS) (h2 : op ≠ .NOT_EXISTS)
    (hmem : eventHas ev f = true)
    (hval : eventGet ev (some f) = .null) :
    ACond.evaluate ⟨f, op, v⟩ ev = false ∧
    (∀ opS : Option String, simpleCondAtom (some f) opS v ev = false) ∧
    ACond.evaluate ⟨f, .EXISTS, v⟩ ev = true := by
  refine ⟨?_, ?_, ?_⟩
  · simp [ACond.evaluate, h1, h2, hval]
  · intro opS; simp [simpleCondAtom, hval]
  · simp [ACond.evaluate, hmem]

/-- C10 (witness): `{"a": null}` against `a == null` (false) and
`exists a` (true). -/
theorem C10_witness :
    ACond.evaluate ⟨"a", .EQ, Value.null⟩ [("a", Value.null)] = false ∧
    ACond.evaluate ⟨"a", .EXISTS, Value.null⟩ [("a", Value.null)] = true :=
  ⟨(C10_null_value_false "a" .EQ Value.null [("a", Value.null)]
      (by decide) (by decide) (by decide) (by decide)).1,
   (C10_null_value_false "a" .EQ Value.null [("a", Value.null)]
      (by decide) (by decide) (by decide) (by decide)).2.2⟩

/-! ## Claim C6: alpha-node sharing -/

theorem beq_symm {α : Type} [BEq α] [LawfulBEq α] (x y : α) : (x == y) = (y == x) := by
  by_cases h : x = y
  · subst h; rfl
  · rw [beq_eq_false_iff_ne.mpr h, beq_eq_false_iff_ne.mpr (Ne.symm h)]

theorem keyMatch_symm (a b : ACond) : keyMatch a b = keyMatch b a := by
  unfold keyMatch Value.pyEq
  rw [beq_symm a.field b.field, beq_symm a.operator b.operator,
    beq_symm (Value.normV a.value) (Value.normV b.value),
    beq_symm (hashStrV a.value) (hashStrV b.value)]

mutual

/-- The number of atomic conditions of a tree that pass
`_build_alpha_condition`'s guards (and therefore hit the alpha table). -/
def atomsBuiltC : Cond → Nat
  | .cond (some f) (some o) _ =>
      if f == "" || o == "" then 0
      else match Operator.ofString o with
        | some _ => 1
        | none => 0
  | .cond _ _ _ => 0
  | .group _ cs => if cs.isEmpty then 0 else atomsBuiltL cs
  | .empty => 0
  | .unknown => 0

def atomsBuiltL : List Cond → Nat
  | [] => 0
  | c :: cs => atomsBuiltC c + atomsBuiltL cs

end

/-- No two alpha-table entries identify the same dict key (Python dict
invariant for `_alpha_nodes`). -/
def alphaTableOk (l : List ACond) : Prop := l.Pairwise fun a b => keyMatch a b = false

theorem alphaTableOk_append (l : List ACond) (ac : ACond)
    (h : alphaTableOk l) (hn : ∀ d ∈ l, keyMatch ac d = false) :
    alphaTableOk (l ++ [ac]) := by
  rw [alphaTableOk, List.pairwise_append]
  refine ⟨h, by simp, ?_⟩
  intro a ha b hb
  rcases List.mem_singleton.1 hb with rfl
  rw [keyMatch_symm]
  exact hn a ha

/-- Parent-alpha references of every beta stay inside the alpha table. -/
def betasAlphaOk (st : BSt) : Prop :=
  ∀ b ∈ st.betas, ∀ a ∈ b.parentAlphas, a < st.alphas.length

theorem alphaLookup_some {ac : ACond} : ∀ {l : List ACond} {i : Nat},
    alphaLookup ac l = some i → i < l.length ∧ keyMatch ac (l.getD i default) = true
  | [], i => by simp [alphaLookup]
  | d :: ds, i => by
      intro h
      by_cases hk : keyMatch ac d
      · simp only [alphaLookup, hk, if_true] at h
        cases h
        exact ⟨by simp, by simpa using hk⟩
      · simp only [alphaLookup, hk, Bool.false_eq_true, if_false, Option.map_eq_some'] at h
        obtain ⟨j, hj, rfl⟩ := h
        obtain ⟨hlt, hkm⟩ := alphaLookup_some hj
        exact ⟨by simpa using hlt, by simpa using hkm⟩

theorem alphaLookup_none {ac : ACond} : ∀ {l : List ACond},
    alphaLookup ac l = none → ∀ d ∈ l, keyMatch ac d = false
  | [] => by simp
  | d :: ds => by
      intro h e he
      by_cases hk : keyMatch ac d
      · simp [alphaLookup, hk] at h
      · simp only [alphaLookup, hk, Bool.false_eq_true, if_false, Option.map_eq_none'] at h
        rcases List.mem_cons.1 he with rfl | he'
        · simpa using hk
        · exact alphaLookup_none h e he'

theorem setNegAt_parentAlphas (l : List BetaN) (i : Nat) :
    ∀ b ∈ setNegAt l i, ∃ b0 ∈ l, b.parentAlphas = b0.parentAlphas := by
  intro b hb
  unfold setNegAt at hb
  cases hg : l.get? i with
  | none => rw [hg] at hb; exact ⟨b, hb, rfl⟩
  | some b0 =>
      rw [hg] at hb
      rcases List.mem_or_eq_of_mem_set hb with hb' | rfl
      · exact ⟨b, hb', rfl⟩
      · exact ⟨b0, List.get?_mem hg, rfl⟩

theorem setTerminalAt_parentAlphas (l : List BetaN) (i : Nat) (t : Terminal) :
    ∀ b ∈ setTerminalAt l i t, ∃ b0 ∈ l, b.parentAlphas = b0.parentAlphas := by
  intro b hb
  unfold setTerminalAt at hb
  cases hg : l.get? i with
  | none => rw [hg] at hb; exact ⟨b, hb, rfl⟩
  | some b0 =>
      rw [hg] at hb
      rcases List.mem_or_eq_of_mem_set hb with hb' | rfl
      · exact ⟨b, hb', rfl⟩
      · exact ⟨b0, List.get?_mem hg, rfl⟩


/-! ### Branch equations of the condition builder -/

theorem buildCond_atomic_shared (fld opStr : String) (v : Value) (st : BSt)
    (p : Operator) (i : Nat)
    (hg : (fld == "" || opStr == "") = false)
    (hop : Operator.ofString opStr = some p)
    (hl : alphaLookup ⟨fld, p, v⟩ st.alphas = some i) :
    buildCond (.cond (some fld) (some opStr) v) st =
      (some st.betas.length,
       ⟨st.alphas, st.betas ++ [⟨"AND", [i], [], false, none⟩], st.shared + 1, st.terminals⟩) := by
  simp [buildCond, hg, hop, hl]

theorem buildCond_atomic_fresh (fld opStr : String) (v : Value) (st : BSt)
    (p : Operator)
    (hg : (fld == "" || opStr == "") = false)
    (hop : Operator.ofString opStr = some p)
    (hl : alphaLookup ⟨fld, p, v⟩ st.alphas = none) :
    buildCond (.cond (some fld) (some opStr) v) st =
      (some st.betas.length,
       ⟨st.alphas ++ [⟨fld, p, v⟩],
        st.betas ++ [⟨"AND", [st.alphas.length], [], false, none⟩],
        st.shared, st.terminals⟩) := by
  simp [buildCond, hg, hop, hl]

theorem buildCond_group_empty (gop : Option String) (st : BSt) :
    buildCond (.group gop []) st =
      (some st.betas.length,
       ⟨st.alphas, st.betas ++ [⟨"AND", [], [], false, none⟩], st.shared, st.terminals⟩) := by
  simp [buildCond]

theorem buildCond_group_nilbuilt (gop : Option String) (cs : List Cond) (st : BSt)
    (he : cs.isEmpty = false) (hcb : (buildChildren cs st).1 = []) :
    buildCond (.group gop cs) st = (none, (buildChildren cs st).2) := by
  simp [buildCond, he, hcb]

theorem buildCond_group_not (gop : Option String) (cs : List Cond) (st : BSt)
    (r0 : Nat) (rest : List Nat)
    (he : cs.isEmpty = false) (hcb : (buildChildren cs st).1 = r0 :: rest)
    (hnot : strUpper (gop.getD "AND") = "NOT") :
    buildCond (.group gop cs) st =
      (some r0,
       ⟨(buildChildren cs st).2.alphas, setNegAt (buildChildren cs st).2.betas r0,
        (buildChildren cs st).2.shared, (buildChildren cs st).2.terminals⟩) := by
  simp [buildCond, he, hcb, hnot]

theorem buildCond_group_join (gop : Option String) (cs : List Cond) (st : BSt)
    (r0 : Nat) (rest : List Nat)
    (he : cs.isEmpty = false) (hcb : (buildChildren cs st).1 = r0 :: rest)
    (hnot : ¬ strUpper (gop.getD "AND") = "NOT") :
    buildCond (.group gop cs) st =
      (some (buildChildren cs st).2.betas.length,
       ⟨(buildChildren cs st).2.alphas,
        (buildChildren cs st).2.betas ++
          [⟨strUpper (gop.getD "AND"), [], r0 :: rest, false, none⟩],
        (buildChildren cs st).2.shared, (buildChildren cs st).2.terminals⟩) := by
  simp [buildCond, he, hcb, hnot]

theorem buildCond_empty (st : BSt) : buildCond .empty st = (none, st) := by
  simp [buildCond]

theorem buildCond_unknown (st : BSt) : buildCond .unknown st = (none, st) := by
  simp [buildCond]

theorem buildCond_atomic_nofield (o : Option String) (v : Value) (st : BSt) :
    buildCond (.cond none o v) st = (none, st) := by
  simp [buildCond]

theorem buildCond_atomic_noop (f : String) (v : Value) (st : BSt) :
    buildCond (.cond (some f) none v) st = (none, st) := by
  simp [buildCond]

theorem buildCond_atomic_guard (fld opStr : String) (v : Value) (st : BSt)
    (hg : (fld == "" || opStr == "") = true) :
    buildCond (.cond (some fld) (some opStr) v) st = (none, st) := by
  simp [buildCond, hg]

theorem buildCond_atomic_badop (fld opStr : String) (v : Value) (st : BSt)
    (hg : (fld == "" || opStr == "") = false)
    (hop : Operator.ofString opStr = none) :
    buildCond (.cond (some fld) (some opStr) v) st = (none, st) := by
  simp [buildCond, hg, hop]

theorem buildChildren_nil (st : BSt) : buildChildren [] st = ([], st) := by
  simp [buildChildren]

theorem buildChildren_cons (c : Cond) (cs : List Cond) (st : BSt) :
    buildChildren (c :: cs) st =
      (match (buildCond c st).1 with
       | some r => r :: (buildChildren cs (buildCond c st).2).1
       | none => (buildChildren cs (buildCond c st).2).1,
       (buildChildren cs (buildCond c st).2).2) := by
  simp [buildChildren]


/-- Case analysis driver: every `buildCond` result is covered by one of the
branch equations. -/
theorem betasAlphaOk_append_leaf (st : BSt) (b : BetaN)
    (h : betasAlphaOk st) (hb : ∀ a ∈ b.parentAlphas, a < st.alphas.length) :
    betasAlphaOk ⟨st.alphas, st.betas ++ [b], st.shared, st.terminals⟩ := by
  intro b' hb' a ha
  rcases List.mem_append.1 hb' with hb2 | hb2
  · exact h b' hb2 a ha
  · rcases List.mem_singleton.1 hb2 with rfl
    exact hb a ha

mutual

/-- Building one condition extends the alpha table (prefix-preserving), adds
`atomsBuiltC c` to `shared + |alphas|`, preserves the dict invariant of the
table, and keeps every beta's alpha references in range. -/
theorem buildCond_inv : ∀ (c : Cond) (st : BSt),
    st.alphas <+: (buildCond c st).2.alphas ∧
    ((buildCond c st).2.shared + (buildCond c st).2.alphas.length
      = st.shared + st.alphas.length + atomsBuiltC c) ∧
    (alphaTableOk st.alphas → alphaTableOk (buildCond c st).2.alphas) ∧
    (betasAlphaOk st → betasAlphaOk (buildCond c st).2)
  | .empty, st => by
      rw [buildCond_empty]
      exact ⟨List.prefix_rfl, by simp [atomsBuiltC], fun h => h, fun h => h⟩
  | .unknown, st => by
      rw [buildCond_unknown]
      exact ⟨List.prefix_rfl, by simp [atomsBuiltC], fun h => h, fun h => h⟩
  | .cond none o v, st => by
      rw [buildCond_atomic_nofield]
      exact ⟨List.prefix_rfl, by simp [atomsBuiltC], fun h => h, fun h => h⟩
  | .cond (some fld) none v, st => by
      rw [buildCond_atomic_noop]
      exact ⟨List.prefix_rfl, by simp [atomsBuiltC], fun h => h, fun h => h⟩
  | .cond (some fld) (some opStr) v, st => by
      by_cases hg : (fld == "" || opStr == "") = true
      · rw [buildCond_atomic_guard fld opStr v st hg]
        exact ⟨List.prefix_rfl, by simp [atomsBuiltC, hg], fun h => h, fun h => h⟩
      · have hg' : (fld == "" || opStr == "") = false := by
          cases hx : (fld == "" || opStr == "") with
          | false => rfl
          | true => exact absurd hx hg
        cases hop : Operator.ofString opStr with
        | none =>
            rw [buildCond_atomic_badop fld opStr v st hg' hop]
            exact ⟨List.prefix_rfl, by simp [atomsBuiltC, hg', hop], fun h => h, fun h => h⟩
        | some p =>
            cases hl : alphaLookup ⟨fld, p, v⟩ st.alphas with
            | some i =>
                rw [buildCond_atomic_shared fld opStr v st p i hg' hop hl]
                refine ⟨List.prefix_rfl, by simp [atomsBuiltC, hg', hop]; omega,
                  fun h => h, fun h => ?_⟩
                refine betasAlphaOk_append_leaf st _ h ?_
                intro a ha
                rcases List.mem_singleton.1 ha with rfl
                exact (alphaLookup_some hl).1
            | none =>
                rw [buildCond_atomic_fresh fld opStr v st p hg' hop hl]
                refine ⟨List.prefix_append _ _, by simp [atomsBuiltC, hg', hop]; omega,
                  fun h => alphaTableOk_append _ _ h (alphaLookup_none hl), fun h => ?_⟩
                intro b' hb' a ha
                rcases List.mem_append.1 hb' with hb2 | hb2
                · have := h b' hb2 a ha
                  simp only [List.length_append, List.length_singleton]
                  omega
                · rcases List.mem_singleton.1 hb2 with rfl
                  rcases List.mem_singleton.1 ha with rfl
                  simp
  | .group gop cs, st => by
      cases hcs : cs with
      | nil =>
          rw [buildCond_group_empty]
          refine ⟨List.prefix_rfl, by simp [atomsBuiltC], fun h => h, fun h => ?_⟩
          refine betasAlphaOk_append_leaf st _ h ?_
          intro a ha
          simp at ha
      | cons c0 cs' =>
          have he : ((c0 :: cs').isEmpty) = false := rfl
          obtain ⟨hpre, hcount, htab, hbeta⟩ := buildChildren_inv (c0 :: cs') st
          cases hcb : (buildChildren (c0 :: cs') st).1 with
          | nil =>
              rw [buildCond_group_nilbuilt gop (c0 :: cs') st he hcb]
              exact ⟨hpre, by simp only [atomsBuiltC, he, Bool.false_eq_true, if_false]; omega,
                htab, hbeta⟩
          | cons r0 rest =>
              by_cases hnot : strUpper (gop.getD "AND") = "NOT"
              · rw [buildCond_group_not gop (c0 :: cs') st r0 rest he hcb hnot]
                refine ⟨hpre, by simp only [atomsBuiltC, he, Bool.false_eq_true, if_false]; omega,
                  htab, fun h => ?_⟩
                intro b' hb' a ha
                obtain ⟨b0, hb0, hpa⟩ := setNegAt_parentAlphas _ r0 b' hb'
                rw [hpa] at ha
                exact hbeta h b0 hb0 a ha
              · rw [buildCond_group_join gop (c0 :: cs') st r0 rest he hcb hnot]
                refine ⟨hpre, by simp only [atomsBuiltC, he, Bool.false_eq_true, if_false]; omega,
                  htab, fun h => ?_⟩
                refine betasAlphaOk_append_leaf _ _ (hbeta h) ?_
                intro a ha
                simp at ha

/-- `buildChildren` version of `buildCond_inv`. -/
theorem buildChildren_inv : ∀ (cs : List Cond) (st : BSt),
    st.alphas <+: (buildChildren cs st).2.alphas ∧
    ((buildChildren cs st).2.shared + (buildChildren cs st).2.alphas.length
      = st.shared + st.alphas.length + atomsBuiltL cs) ∧
    (alphaTableOk st.alphas → alphaTableOk (buildChildren cs st).2.alphas) ∧
    (betasAlphaOk st → betasAlphaOk (buildChildren cs st).2)
  | [], st => by
      rw [buildChildren_nil]
      exact ⟨List.prefix_rfl, by simp [atomsBuiltL], fun h => h, fun h => h⟩
  | c :: cs, st => by
      obtain ⟨hpre1, hcount1, htab1, hbeta1⟩ := buildCond_inv c st
      obtain ⟨hpre2, hcount2, htab2, hbeta2⟩ := buildChildren_inv cs (buildCond c st).2
      have hsnd : (buildChildren (c :: cs) st).2 = (buildChildren cs (buildCond c st).2).2 := by
        rw [buildChildren_cons]
      rw [hsnd]
      refine ⟨hpre1.trans hpre2, ?_, fun h => htab2 (htab1 h), fun h => hbeta2 (hbeta1 h)⟩
      have hlen1 := hpre1.length_le
      simp only [atomsBuiltL]
      omega

end

/-- Atomic occurrences of one rule that reach the alpha table. -/
def atomsBuiltR (r : RuleInput) : Nat :=
  if condTruthy (r.conditionK.getD .empty) then atomsBuiltC (r.conditionK.getD .empty) else 0

/-- Atomic occurrences of a rule list that reach the alpha table. -/
def atomsBuilt (rules : List RuleInput) : Nat := (rules.map atomsBuiltR).sum

theorem betasAlphaOk_terminals (st : BSt) (ts : List (Int × Terminal)) :
    betasAlphaOk ⟨st.alphas, st.betas, st.shared, ts⟩ ↔ betasAlphaOk st := Iff.rfl

theorem addRule_inv (r : RuleInput) (st st' : BSt) (h : addRule r st = .ok st') :
    st.alphas <+: st'.alphas ∧
    st'.shared + st'.alphas.length = st.shared + st.alphas.length + atomsBuiltR r ∧
    (alphaTableOk st.alphas → alphaTableOk st'.alphas) ∧
    (betasAlphaOk st → betasAlphaOk st') := by
  unfold addRule at h
  cases hid : r.idK with
  | none => rw [hid] at h; simp at h
  | some rid =>
      rw [hid] at h
      dsimp only at h
      set st1 : BSt := ⟨st.alphas, st.betas, st.shared,
        dictInsert st.terminals rid
          ⟨rid, r.nameK.getD ("Rule " ++ toString rid), r.priorityK.getD 0,
           r.actionK.getD (.str "")⟩⟩ with hst1
      have hb1 : betasAlphaOk st1 ↔ betasAlphaOk st := Iff.rfl
      obtain ⟨hpre, hcount, htab, hbeta⟩ := buildCond_inv (r.conditionK.getD .empty) st1
      split at h
      case isTrue hct =>
        unfold atomsBuiltR
        rw [if_pos hct]
        split at h
        case h_1 root heq =>
          injection h with h'
          subst h'
          refine ⟨hpre, by simpa using hcount, htab, ?_⟩
          intro hb
          intro b' hb' a ha
          obtain ⟨b0, hb0, hpa⟩ :=
            setTerminalAt_parentAlphas (buildCond (r.conditionK.getD .empty) st1).2.betas root _ b' hb'
          rw [hpa] at ha
          exact hbeta (hb1.2 hb) b0 hb0 a ha
        case h_2 heq =>
          injection h with h'
          subst h'
          exact ⟨hpre, by simpa using hcount, htab, fun hb => hbeta (hb1.2 hb)⟩
      case isFalse hct =>
        injection h with h'
        subst h'
        unfold atomsBuiltR
        rw [if_neg hct]
        exact ⟨List.prefix_rfl, by simp, fun hh => hh, fun hh => hh⟩

theorem addAllRules_inv : ∀ (rules : List RuleInput) (st st' : BSt),
    addAllRules rules st = (none, st') →
    st.alphas <+: st'.alphas ∧
    st'.shared + st'.alphas.length = st.shared + st.alphas.length + atomsBuilt rules ∧
    (alphaTableOk st.alphas → alphaTableOk st'.alphas) ∧
    (betasAlphaOk st → betasAlphaOk st')
  | [], st, st' => by
      intro h
      simp only [addAllRules] at h
      injection h with h1 h2
      subst h2
      exact ⟨List.prefix_rfl, by simp [atomsBuilt], fun hh => hh, fun hh => hh⟩
  | r :: rs, st, st' => by
      intro h
      simp only [addAllRules] at h
      split at h
      case h_1 st1 heq =>
        obtain ⟨p1, c1, t1, b1⟩ := addRule_inv r st st1 heq
        obtain ⟨p2, c2, t2, b2⟩ := addAllRules_inv rs st1 st' h
        refine ⟨p1.trans p2, ?_, fun hh => t2 (t1 hh), fun hh => b2 (b1 hh)⟩
        have := p1.length_le
        simp only [atomsBuilt, List.map_cons, List.sum_cons] at *
        omega
      case h_2 e heq => simp at h

/-- C6: after a successful compile from the empty network, (i) no two alpha
nodes test Python-identical `(field, op, value)` keys — in particular any two
rules referencing one triple were routed to one shared node — (ii)
`shared_conditions` counts exactly the reuses: nodes created plus counter
bumps equal the atomic occurrences built, and (iii) every beta's alpha
references are in range. -/
theorem C6_alpha_sharing (rules : List RuleInput) (net : Network)
    (h : ReteNetwork.compile emptyNetwork rules = (net, true)) :
    alphaTableOk net.alphas ∧
    net.shared + net.alphas.length = atomsBuilt rules ∧
    ∀ b ∈ net.betas, ∀ a ∈ b.parentAlphas, a < net.alphas.length := by
  have hne : ¬ (calcHash rules == emptyNetwork.rulesHash) = true := by
    intro hc
    have : calcHash rules = "" := beq_iff_eq.mp hc
    have hlen := congrArg String.length this
    simp [calcHash, String.length_append] at hlen
    exact absurd hlen.1.1 (by decide)
  unfold ReteNetwork.compile at h
  rw [if_neg hne] at h
  cases he : addAllRules rules (clearedSt emptyNetwork) with
  | mk oe st =>
      cases oe with
      | some e => rw [he] at h; simp at h
      | none =>
          rw [he] at h
          injection h with h1 h2
          obtain ⟨p, c, t, b⟩ := addAllRules_inv rules _ st he
          have hnet : net.alphas = st.alphas ∧ net.betas = st.betas ∧ net.shared = st.shared := by
            rw [← h1]
            exact ⟨rfl, rfl, rfl⟩
          obtain ⟨ha, hb, hs⟩ := hnet
          refine ⟨?_, ?_, ?_⟩
          · rw [ha]
            exact t (by simp [clearedSt, alphaTableOk])
          · rw [hs, ha]
            simpa [clearedSt, emptyNetwork] using c
          · rw [ha, hb]
            exact b (by intro bb hbb; simp [clearedSt] at hbb)

/-- The spec's shared-alpha scenario: two rules with the same
`amount > 1000` condition. -/
def c6Rules : List RuleInput :=
  [⟨some 1, some "R1", some 10, some (.str "alert"),
    some (.cond (some "amount") (some ">") (.int 1000))⟩,
   ⟨some 2, some "R2", some 5, some (.str "log"),
    some (.cond (some "amount") (some ">") (.int 1000))⟩]

/-- C6 (witness): the shared-alpha scenario — one alpha node, one reuse
counted — via `C6_alpha_sharing`. -/
theorem C6_witness :
    alphaTableOk ((ReteNetwork.compile emptyNetwork c6Rules).1).alphas ∧
    ((ReteNetwork.compile emptyNetwork c6Rules).1).shared +
      ((ReteNetwork.compile emptyNetwork c6Rules).1).alphas.length = atomsBuilt c6Rules :=
  ⟨(C6_alpha_sharing c6Rules (ReteNetwork.compile emptyNetwork c6Rules).1 (by decide)).1,
   (C6_alpha_sharing c6Rules (ReteNetwork.compile emptyNetwork c6Rules).1 (by decide)).2.1⟩

/-! ## Claim C9: order-independence of the optimized full scan -/

theorem allPairs_mem_split {α : Type} {a b : α} :
    ∀ {l : List α}, (a, b) ∈ allPairs l → ∃ l1 l2, l = l1 ++ a :: l2 ∧ b ∈ l2
  | [], h => by simp [allPairs] at h
  | x :: xs, h => by
      simp only [allPairs, List.mem_append] at h
      rcases h with h' | h'
      · obtain ⟨y, hy, heq⟩ := List.mem_map.1 h'
        injection heq with h1 h2
        subst h1; subst h2
        exact ⟨[], xs, rfl, hy⟩
      · obtain ⟨l1, l2, rfl, hb⟩ := allPairs_mem_split h'
        exact ⟨x :: l1, l2, rfl, hb⟩

theorem mem_allPairs_or {α : Type} {a b : α} :
    ∀ {l : List α}, a ∈ l → b ∈ l → a ≠ b →
      (a, b) ∈ allPairs l ∨ (b, a) ∈ allPairs l
  | [], ha, _, _ => by simp at ha
  | x :: xs, ha, hb, hne => by
      rcases List.mem_cons.1 ha with rfl | ha'
      · left
        have hb' : b ∈ xs := by
          rcases List.mem_cons.1 hb with rfl | hb'
          · exact absurd rfl hne
          · exact hb'
        simp only [allPairs, List.mem_append]
        exact Or.inl (List.mem_map.2 ⟨b, hb', rfl⟩)
      · rcases List.mem_cons.1 hb with rfl | hb'
        · right
          simp only [allPairs, List.mem_append]
          exact Or.inl (List.mem_map.2 ⟨a, ha', rfl⟩)
        · rcases mem_allPairs_or ha' hb' hne with h | h
          · exact Or.inl (by simp only [allPairs, List.mem_append]; exact Or.inr h)
          · exact Or.inr (by simp only [allPairs, List.mem_append]; exact Or.inr h)

theorem mem_firstKeys {α K : Type} [BEq K] [LawfulBEq K] (key : α → K) :
    ∀ (l : List α) (x : α), x ∈ l → key x ∈ firstKeys key l := by
  have haux : ∀ (l : List α) (acc : List K) (k : K),
      k ∈ acc ∨ (∃ x ∈ l, key x = k) →
      k ∈ l.foldl (fun acc x => if acc.any (· == key x) then acc else acc ++ [key x]) acc := by
    intro l
    induction l with
    | nil =>
        intro acc k h
        rcases h with h | ⟨x, hx, _⟩
        · simpa using h
        · simp at hx
    | cons y ys ih =>
        intro acc k h
        simp only [List.foldl_cons]
        by_cases hy : acc.any (· == key y)
        · rw [if_pos hy]
          apply ih
          rcases h with h | ⟨x, hx, hk⟩
          · exact Or.inl h
          · rcases List.mem_cons.1 hx with rfl | hx'
            · subst hk
              obtain ⟨kk, hkk, he⟩ := List.any_eq_true.1 hy
              exact Or.inl (beq_iff_eq.1 he ▸ hkk)
            · exact Or.inr ⟨x, hx', hk⟩
        · rw [if_neg hy]
          apply ih
          rcases h with h | ⟨x, hx, hk⟩
          · exact Or.inl (List.mem_append.2 (Or.inl h))
          · rcases List.mem_cons.1 hx with rfl | hx'
            · exact Or.inl (List.mem_append.2 (Or.inr (by simp [hk])))
            · exact Or.inr ⟨x, hx', hk⟩
  intro l x hx
  exact haux l [] (key x) (Or.inr ⟨x, hx, rfl⟩)

theorem one_lt_length_of_two_mem {α : Type} {a b : α} {l : List α}
    (ha : a ∈ l) (hb : b ∈ l) (hne : a ≠ b) : 1 < l.length := by
  cases l with
  | nil => simp at ha
  | cons x xs =>
      cases xs with
      | nil =>
          rcases List.mem_singleton.1 ha with rfl
          rcases List.mem_singleton.1 hb with rfl
          exact absurd rfl hne
      | cons y ys => simp

/-- Forward reading of a bucket pair: equal keys and an ordered occurrence
split of the bucket. -/
theorem bucketAllPairs_mem {K : Type} [BEq K] [LawfulBEq K]
    (key : DbRule → K) (rules : List DbRule) (a b : DbRule)
    (h : (a, b) ∈ bucketAllPairs key rules) :
    key a = key b ∧
      ∃ l1 l2, rules.filter (fun r => key r == key a) = l1 ++ a :: l2 ∧ b ∈ l2 := by
  unfold bucketAllPairs at h
  obtain ⟨block, hblock, hmem⟩ := List.mem_flatten.1 h
  obtain ⟨kk, hkk, rfl⟩ := List.mem_map.1 hblock
  by_cases hl : (rules.filter fun r => key r == kk).length > 1
  · rw [if_pos hl] at hmem
    obtain ⟨l1, l2, hsplit, hb⟩ := allPairs_mem_split hmem
    have haf : a ∈ rules.filter fun r => key r == kk := by
      rw [hsplit]; simp
    have hbf : b ∈ rules.filter fun r => key r == kk := by
      rw [hsplit]
      exact List.mem_append.2 (Or.inr (List.mem_cons.2 (Or.inr hb)))
    have hka : key a = kk := beq_iff_eq.1 ((List.mem_filter.1 haf).2)
    have hkb : key b = kk := beq_iff_eq.1 ((List.mem_filter.1 hbf).2)
    subst hka
    exact ⟨hkb.symm, l1, l2, hsplit, hb⟩
  · rw [if_neg hl] at hmem
    simp at hmem

/-- Backward reading: two distinct same-key rules yield the pair in one of its
two orientations. -/
theorem bucketAllPairs_mem_of {K : Type} [BEq K] [LawfulBEq K]
    (key : DbRule → K) (rules : List DbRule) (a b : DbRule)
    (ha : a ∈ rules) (hb : b ∈ rules) (hk : key a = key b) (hne : a ≠ b) :
    (a, b) ∈ bucketAllPairs key rules ∨ (b, a) ∈ bucketAllPairs key rules := by
  have haf : a ∈ rules.filter fun r => key r == key a := by
    apply List.mem_filter.2 ⟨ha, by simp⟩
  have hbf : b ∈ rules.filter fun r => key r == key a := by
    apply List.mem_filter.2 ⟨hb, by simp [hk]⟩
  have hlen : 1 < (rules.filter fun r => key r == key a).length :=
    one_lt_length_of_two_mem haf hbf hne
  have hkmem : key a ∈ firstKeys key rules := mem_firstKeys key rules a ha
  have hblock : (if (rules.filter fun r => key r == key a).length > 1 then
      allPairs (rules.filter fun r => key r == key a) else [])
      ∈ (firstKeys key rules).map fun k =>
        let bucket := rules.filter fun r => key r == k
        if bucket.length > 1 then allPairs bucket else [] := by
    exact List.mem_map.2 ⟨key a, hkmem, rfl⟩
  rcases mem_allPairs_or haf hbf hne with hp | hp
  · exact Or.inl (List.mem_flatten.2 ⟨_, hblock, by rw [if_pos hlen]; exact hp⟩)
  · exact Or.inr (List.mem_flatten.2 ⟨_, hblock, by rw [if_pos hlen]; exact hp⟩)

theorem pairNorm_comm (i j : Int) : pairNorm i j = pairNorm j i := by
  unfold pairNorm
  rcases lt_trichotomy i j with h | h | h
  · rw [if_pos h.le, if_neg (by omega)]
  · subst h; rfl
  · rw [if_neg (by omega), if_pos h.le]

theorem id_ne_of_split {l l1 l2 : List DbRule} {a b : DbRule}
    (hnd : (l.map DbRule.id).Nodup) (hsp : l = l1 ++ a :: l2) (hb : b ∈ l2) :
    a.id ≠ b.id := by
  subst hsp
  rw [List.map_append] at hnd
  have h2 := hnd.of_append_right
  rw [List.map_cons] at h2
  intro he
  exact (List.nodup_cons.1 h2).1 (he ▸ List.mem_map_of_mem DbRule.id hb)

/-- A `(group, priority)` collision pair exists between two distinct enabled
rules; the reported key in normalised form. -/
def pairWitnessPrio (db : List DbRule) (k : CKey) : Prop :=
  ∃ a b, a ∈ db ∧ b ∈ db ∧ a.enabled = true ∧ b.enabled = true ∧ a.id ≠ b.id ∧
    groupKeyOf a = groupKeyOf b ∧ a.priority = b.priority ∧
    k = .prio (pairNorm a.id b.id).1 (pairNorm a.id b.id).2 (groupKeyOf a) a.priority

/-- A duplicate-condition pair exists between two distinct enabled rules. -/
def pairWitnessDup (db : List DbRule) (k : CKey) : Prop :=
  ∃ a b, a ∈ db ∧ b ∈ db ∧ a.enabled = true ∧ b.enabled = true ∧ a.id ≠ b.id ∧
    a.conditionCanon = b.conditionCanon ∧
    k = .dup (pairNorm a.id b.id).1 (pairNorm a.id b.id).2

/-- Normalised conflict keys of the optimized full scan, characterised by a
scan-order-free predicate (given globally distinct rule ids). -/
theorem mem_optKeys_iff (db : List DbRule) (hnd : (db.map DbRule.id).Nodup) (k : CKey) :
    k ∈ conflictKeys (optDetectAll db) ↔ pairWitnessPrio db k ∨ pairWitnessDup db k := by
  have hsubl : ∀ (p : DbRule → Bool) (q : DbRule → Bool),
      (((db.filter p).filter q).map DbRule.id).Nodup := by
    intro p q
    exact hnd.sublist (List.Sublist.map _ ((List.filter_sublist _).trans (List.filter_sublist _)))
  constructor
  · intro h
    simp only [conflictKeys, optDetectAll, List.map_append, List.map_map,
      List.mem_append, List.mem_map, Function.comp] at h
    rcases h with ⟨p, hp, hk⟩ | ⟨p, hp, hk⟩
    · obtain ⟨a, b⟩ := p
      obtain ⟨hkey, l1, l2, hsplit, hb⟩ :=
        bucketAllPairs_mem (fun r => (groupKeyOf r, r.priority)) _ a b hp
      have hane : a.id ≠ b.id :=
        id_ne_of_split (l := (db.filter fun r => r.enabled).filter
          (fun r => ((groupKeyOf r, r.priority) == (groupKeyOf a, a.priority))))
          (hsubl _ _) hsplit hb
      have haf : a ∈ db.filter fun r => r.enabled := by
        have : a ∈ (db.filter fun r => r.enabled).filter
            (fun r => ((groupKeyOf r, r.priority) == (groupKeyOf a, a.priority))) := by
          rw [hsplit]; simp
        exact (List.mem_filter.1 this).1
      have hbf : b ∈ db.filter fun r => r.enabled := by
        have : b ∈ (db.filter fun r => r.enabled).filter
            (fun r => ((groupKeyOf r, r.priority) == (groupKeyOf a, a.priority))) := by
          rw [hsplit]
          exact List.mem_append.2 (Or.inr (List.mem_cons.2 (Or.inr hb)))
        exact (List.mem_filter.1 this).1
      have hkey1 : groupKeyOf a = groupKeyOf b ∧ a.priority = b.priority := by
        have := hkey
        rw [Prod.mk.injEq] at this
        exact this
      left
      refine ⟨a, b, (List.mem_filter.1 haf).1, (List.mem_filter.1 hbf).1,
        (List.mem_filter.1 haf).2, (List.mem_filter.1 hbf).2, hane,
        hkey1.1, hkey1.2, ?_⟩
      rw [← hk]; simp [conflictKey]
    · obtain ⟨a, b⟩ := p
      obtain ⟨hkey, l1, l2, hsplit, hb⟩ :=
        bucketAllPairs_mem (fun r => r.conditionCanon) _ a b hp
      have hane : a.id ≠ b.id :=
        id_ne_of_split (l := (db.filter fun r => r.enabled).filter
          (fun r => (r.conditionCanon == a.conditionCanon))) (hsubl _ _) hsplit hb
      have haf : a ∈ db.filter fun r => r.enabled := by
        have : a ∈ (db.filter fun r => r.enabled).filter
            (fun r => (r.conditionCanon == a.conditionCanon)) := by
          rw [hsplit]; simp
        exact (List.mem_filter.1 this).1
      have hbf : b ∈ db.filter fun r => r.enabled := by
        have : b ∈ (db.filter fun r => r.enabled).filter
            (fun r => (r.conditionCanon == a.conditionCanon)) := by
          rw [hsplit]
          exact List.mem_append.2 (Or.inr (List.mem_cons.2 (Or.inr hb)))
        exact (List.mem_filter.1 this).1
      right
      refine ⟨a, b, (List.mem_filter.1 haf).1, (List.mem_filter.1 hbf).1,
        (List.mem_filter.1 haf).2, (List.mem_filter.1 hbf).2, hane, hkey, ?_⟩
      rw [← hk]; simp [conflictKey]
  · intro h
    simp only [conflictKeys, optDetectAll, List.map_append, List.map_map,
      List.mem_append, List.mem_map, Function.comp]
    rcases h with ⟨a, b, hadb, hbdb, hae, hbe, hne, hg, hpr, hk⟩ |
      ⟨a, b, hadb, hbdb, hae, hbe, hne, hc, hk⟩
    · have haf : a ∈ db.filter fun r => r.enabled := List.mem_filter.2 ⟨hadb, hae⟩
      have hbf : b ∈ db.filter fun r => r.enabled := List.mem_filter.2 ⟨hbdb, hbe⟩
      have hkeq : (groupKeyOf a, a.priority) = (groupKeyOf b, b.priority) := by
        rw [hg, hpr]
      have habne : a ≠ b := fun he => hne (congrArg DbRule.id he)
      rcases bucketAllPairs_mem_of (fun r => (groupKeyOf r, r.priority)) _ a b haf hbf hkeq habne
        with hp | hp
      · exact Or.inl ⟨(a, b), hp, by rw [hk]; simp [conflictKey]⟩
      · refine Or.inl ⟨(b, a), hp, by rw [hk]; simp [conflictKey, pairNorm_comm b.id a.id, hg, hpr]⟩
    · have haf : a ∈ db.filter fun r => r.enabled := List.mem_filter.2 ⟨hadb, hae⟩
      have hbf : b ∈ db.filter fun r => r.enabled := List.mem_filter.2 ⟨hbdb, hbe⟩
      have habne : a ≠ b := fun he => hne (congrArg DbRule.id he)
      rcases bucketAllPairs_mem_of _ _ a b haf hbf hc habne with hp | hp
      · exact Or.inr ⟨(a, b), hp, by rw [hk]; simp [conflictKey]⟩
      · exact Or.inr ⟨(b, a), hp, by rw [hk]; simp [conflictKey, pairNorm_comm b.id a.id]⟩

/-- C9 (amended): the optimized detector's full scan is insensitive to corpus
order — permuted rule lists with globally distinct ids produce the same set of
normalised conflict keys (type + unordered id pair + collision bucket).  (The
basic detector's duplicate scan is order-dependent; see the counterexample.) -/
theorem C9_amended_opt_order_independent (db1 db2 : List DbRule)
    (hperm : db1.Perm db2) (hnd : (db1.map DbRule.id).Nodup) :
    ∀ k, k ∈ conflictKeys (optDetectAll db1) ↔ k ∈ conflictKeys (optDetectAll db2) := by
  intro k
  have hnd2 : (db2.map DbRule.id).Nodup := ((hperm.map DbRule.id).nodup_iff).1 hnd
  rw [mem_optKeys_iff db1 hnd k, mem_optKeys_iff db2 hnd2 k]
  have hmem : ∀ x : DbRule, x ∈ db1 ↔ x ∈ db2 := fun x => hperm.mem_iff
  constructor
  · rintro (⟨a, b, h1, h2, h3, h4, h5, h6, h7, h8⟩ | ⟨a, b, h1, h2, h3, h4, h5, h6, h7⟩)
    · exact Or.inl ⟨a, b, (hmem a).1 h1, (hmem b).1 h2, h3, h4, h5, h6, h7, h8⟩
    · exact Or.inr ⟨a, b, (hmem a).1 h1, (hmem b).1 h2, h3, h4, h5, h6, h7⟩
  · rintro (⟨a, b, h1, h2, h3, h4, h5, h6, h7, h8⟩ | ⟨a, b, h1, h2, h3, h4, h5, h6, h7⟩)
    · exact Or.inl ⟨a, b, (hmem a).2 h1, (hmem b).2 h2, h3, h4, h5, h6, h7, h8⟩
    · exact Or.inr ⟨a, b, (hmem a).2 h1, (hmem b).2 h2, h3, h4, h5, h6, h7⟩

/-- C9 (witness): the amended theorem on a concrete permuted pair of corpora. -/
theorem C9_witness :
    (CKey.dup 7 8 ∈ conflictKeys (optDetectAll
        [⟨7, "x", none, 1, true, "k"⟩, ⟨8, "y", none, 2, true, "k"⟩]) ↔
     CKey.dup 7 8 ∈ conflictKeys (optDetectAll
        [⟨8, "y", none, 2, true, "k"⟩, ⟨7, "x", none, 1, true, "k"⟩])) :=
  C9_amended_opt_order_independent
    [⟨7, "x", none, 1, true, "k"⟩, ⟨8, "y", none, 2, true, "k"⟩]
    [⟨8, "y", none, 2, true, "k"⟩, ⟨7, "x", none, 1, true, "k"⟩]
    (by decide) (by decide) (CKey.dup 7 8)

/-! ## Claim C1: the equivalence fragment

`goodC` carves out the condition trees on which the two paths were built to
agree; each exclusion is witnessed by a divergence (`exists`/`not_exists`
missing from the simple dispatch, empty trees always-true only on the simple
path, non-uppercase connectives upper-cased only by the builder, `NOT(NOT x)`
collapsing to `NOT x` in the network's single negation flag). -/

/-- Does the builder hand back this node's beta with `is_negated` already set?
Exactly the non-empty `NOT` groups. -/
def builtNeg : Cond → Bool
  | .group gop (_ :: _) => strUpper (gop.getD "AND") == "NOT"
  | _ => false

mutual

/-- The well-formed fragment for path equivalence. -/
def goodC : Cond → Bool
  | .cond (some f) (some o) _ =>
      !(f == "") &&
        (match Operator.ofString o with
         | some p => !(p == Operator.EXISTS) && !(p == Operator.NOT_EXISTS)
         | none => false)
  | .cond _ _ _ => false
  | .group gop cs =>
      if cs.isEmpty then true
      else
        let op := gop.getD "AND"
        (op == "AND" || op == "OR" || op == "NOT") && goodL cs &&
          (!(op == "NOT") ||
            (match cs with
             | c0 :: _ => !builtNeg c0
             | [] => true))
  | .empty => false
  | .unknown => false

def goodL : List Cond → Bool
  | [] => true
  | c :: cs => goodC c && goodL cs

end

/-- The un-negated core the network computes at a tree's root beta: the first
child's semantics for non-empty `NOT` groups, the tree's own otherwise. -/
def semCore (c : Cond) (ev : Event) : Bool :=
  match c with
  | .group gop (c0 :: _) =>
      if strUpper (gop.getD "AND") == "NOT" then evalCond c0 ev else evalCond c ev
  | _ => evalCond c ev

theorem goodL_mem {cs : List Cond} (h : goodL cs = true) : ∀ c ∈ cs, goodC c = true := by
  induction cs with
  | nil => simp
  | cons c cs ih =>
      simp only [goodL, Bool.and_eq_true] at h
      intro x hx
      rcases List.mem_cons.1 hx with rfl | hx'
      · exact h.1
      · exact ih h.2 x hx'

theorem evalCondAll_eq (cs : List Cond) (ev : Event) :
    evalCondAll cs ev = (cs.map (evalCond · ev)).all id := by
  induction cs with
  | nil => simp [evalCondAll]
  | cons c cs ih => simp [evalCondAll, ih]

theorem evalCondAny_eq (cs : List Cond) (ev : Event) :
    evalCondAny cs ev = (cs.map (evalCond · ev)).any id := by
  induction cs with
  | nil => simp [evalCondAny]
  | cons c cs ih => simp [evalCondAny, ih]

/-- On good trees the simple-path value is the network core xor the builder's
root negation flag. -/
theorem evalCond_eq_xor_semCore (c : Cond) (ev : Event) (h : goodC c = true) :
    evalCond c ev = xor (semCore c ev) (builtNeg c) := by
  cases c with
  | empty => simp [goodC] at h
  | unknown => simp [goodC] at h
  | cond f o v => cases f <;> cases o <;> simp [semCore, builtNeg]
  | group gop cs =>
      cases cs with
      | nil => simp [semCore, builtNeg]
      | cons c0 cs' =>
          rw [goodC] at h
          simp only [List.isEmpty_cons, Bool.false_eq_true, if_false,
            Bool.and_eq_true, Bool.or_eq_true, beq_iff_eq] at h
          obtain ⟨⟨hop, _⟩, _⟩ := h
          rcases hop with (ho | ho) | ho
          · rw [semCore, builtNeg, ho]
            rw [if_neg (by decide), show (strUpper "AND" == "NOT") = false from by decide]
            simp
          · rw [semCore, builtNeg, ho]
            rw [if_neg (by decide), show (strUpper "OR" == "NOT") = false from by decide]
            simp
          · rw [semCore, builtNeg, ho]
            simp only [show strUpper "NOT" = "NOT" from by decide, beq_self_eq_true, if_true]
            rw [evalCond, ho]
            simp

/-- The alpha network's atomic test agrees with the simple path's: the
operator bodies are shared, the guards identical, once the operator string
parses to a comparison operator. -/
theorem atomic_agree (f o : String) (p : Operator) (v : Value) (ev : Event)
    (hop : Operator.ofString o = some p)
    (hne1 : p ≠ .EXISTS) (hne2 : p ≠ .NOT_EXISTS) :
    ACond.evaluate ⟨f, p, v⟩ ev = simpleCondAtom (some f) (some o) v ev := by
  unfold ACond.evaluate simpleCondAtom simpleCompareRaw
  simp [hop, hne1, hne2]

theorem normV_eq_str_iff (v : Value) (s : String) :
    Value.normV v = .str s ↔ v = .str s := by
  cases v <;> simp [Value.normV]

/-- Two dict-key-identical alpha conditions evaluate identically: the
comparison bodies read the condition value only through its Python-equality
class (`normV`) or its `str()` rendering, both fixed by the key. -/
theorem keyMatch_evaluate (c d : ACond) (h : keyMatch c d = true) (ev : Event) :
    ACond.evaluate c ev = ACond.evaluate d ev := by
  unfold keyMatch Value.pyEq at h
  simp only [Bool.and_eq_true, beq_iff_eq] at h
  obtain ⟨⟨⟨hf, hopr⟩, hnv⟩, hhs⟩ := h
  obtain ⟨cf, cop, cv⟩ := c
  obtain ⟨df, dop, dv⟩ := d
  simp only at hf hopr hnv hhs
  subst hf; subst hopr
  unfold ACond.evaluate
  simp only
  by_cases h1 : cop = .EXISTS
  · simp [h1]
  · by_cases h2 : cop = .NOT_EXISTS
    · simp [h1, h2]
    · simp only [h1, h2, if_false]
      by_cases h3 : eventGet ev (some cf) = .null
      · simp [h3]
      · simp only [h3, if_false]
        have hcomp : compareRaw cop (eventGet ev (some cf)) cv
            = compareRaw cop (eventGet ev (some cf)) dv := by
          unfold hashStrV at hhs
          cases cop <;> unfold compareRaw <;>
            simp only [Value.pyEq, hnv, hhs]
          · -- REGEX: the pattern is the value; str-ness and the string itself
            -- are fixed by `normV`
            cases hcv : cv with
            | str s =>
                have : dv = .str s := (normV_eq_str_iff dv s).1 (by rw [← hnv, hcv]; simp [Value.normV])
                rw [this]
            | null =>
                have : Value.normV dv = .null := by rw [← hnv, hcv]; simp [Value.normV]
                cases dv <;> simp_all [Value.normV]
            | bool b =>
                have hdv : Value.normV dv = .int (if b then 1 else 0) := by
                  rw [← hnv, hcv]; simp [Value.normV]
                cases dv <;> simp_all [Value.normV]
            | int n =>
                have hdv : Value.normV dv = .int n := by rw [← hnv, hcv]; simp [Value.normV]
                cases dv <;> simp_all [Value.normV]
            | list xs =>
                have hdv : ∃ ys, dv = .list ys := by
                  cases dv <;> simp_all [Value.normV]
                obtain ⟨ys, rfl⟩ := hdv
                rfl
            | obj kvs =>
                have hdv : ∃ ys, dv = .obj ys := by
                  cases dv <;> simp_all [Value.normV]
                obtain ⟨ys, rfl⟩ := hdv
                rfl
        rw [hcomp]

theorem getD_of_leading {α : Type} {l1 l2 : List α} (h : l1 <+: l2) (i : Nat) (d : α)
    (hi : i < l1.length) : l2.getD i d = l1.getD i d := by
  obtain ⟨t, rfl⟩ := h
  exact List.getD_append _ _ _ _ hi

theorem take_getD {α : Type} (l : List α) (n i : Nat) (d : α) (hi : i < n) :
    (l.take n).getD i d = l.getD i d := by
  rw [List.getD_eq_getElem?_getD, List.getD_eq_getElem?_getD, List.getElem?_take_of_lt hi]

theorem setNegAt_length (l : List BetaN) (i : Nat) : (setNegAt l i).length = l.length := by
  unfold setNegAt
  cases hg : l.get? i <;> simp

theorem setNegAt_getD_ne (l : List BetaN) (i j : Nat) (d : BetaN) (h : j ≠ i) :
    (setNegAt l i).getD j d = l.getD j d := by
  unfold setNegAt
  cases hg : l.get? i with
  | none => rfl
  | some b =>
      rw [List.getD_eq_getElem?_getD, List.getD_eq_getElem?_getD,
        List.getElem?_set_ne (Ne.symm h)]

theorem setNegAt_getD_self (l : List BetaN) (i : Nat) (d : BetaN) (h : i < l.length) :
    (setNegAt l i).getD i d = { l.getD i d with negated := true } := by
  unfold setNegAt
  cases hg : l.get? i with
  | none => exact absurd (List.get?_eq_none.1 hg) (by omega)
  | some b =>
      have hb : l.getD i d = b := by
        rw [List.getD_eq_getElem?_getD, ← List.get?_eq_getElem?, hg]; rfl
      rw [List.getD_eq_getElem?_getD, List.getElem?_set_self (by omega), hb]
      rfl

theorem setTerminalAt_length (l : List BetaN) (i : Nat) (t : Terminal) :
    (setTerminalAt l i t).length = l.length := by
  unfold setTerminalAt
  cases hg : l.get? i <;> simp

theorem setTerminalAt_getD_ne (l : List BetaN) (i j : Nat) (t : Terminal) (d : BetaN)
    (h : j ≠ i) : (setTerminalAt l i t).getD j d = l.getD j d := by
  unfold setTerminalAt
  cases hg : l.get? i with
  | none => rfl
  | some b =>
      rw [List.getD_eq_getElem?_getD, List.getD_eq_getElem?_getD,
        List.getElem?_set_ne (Ne.symm h)]

theorem setTerminalAt_getD_self (l : List BetaN) (i : Nat) (t : Terminal) (d : BetaN)
    (h : i < l.length) :
    (setTerminalAt l i t).getD i d = { l.getD i d with terminal := some t } := by
  unfold setTerminalAt
  cases hg : l.get? i with
  | none => exact absurd (List.get?_eq_none.1 hg) (by omega)
  | some b =>
      have hb : l.getD i d = b := by
        rw [List.getD_eq_getElem?_getD, ← List.get?_eq_getElem?, hg]; rfl
      rw [List.getD_eq_getElem?_getD, List.getElem?_set_self (by omega), hb]
      rfl

mutual

/-- Building extends the beta arena: old entries untouched, new entries carry
no terminal. -/
theorem buildCond_ext : ∀ (c : Cond) (st : BSt),
    st.betas.length ≤ (buildCond c st).2.betas.length ∧
    (∀ i d, i < st.betas.length → (buildCond c st).2.betas.getD i d = st.betas.getD i d) ∧
    (∀ j d, st.betas.length ≤ j → j < (buildCond c st).2.betas.length →
      ((buildCond c st).2.betas.getD j d).terminal = none)
  | .empty, st => by
      rw [buildCond_empty]
      exact ⟨le_refl _, fun i d _ => rfl, fun j d h1 h2 => absurd (show j < st.betas.length from h2) (by omega)⟩
  | .unknown, st => by
      rw [buildCond_unknown]
      exact ⟨le_refl _, fun i d _ => rfl, fun j d h1 h2 => absurd (show j < st.betas.length from h2) (by omega)⟩
  | .cond none o v, st => by
      rw [buildCond_atomic_nofield]
      exact ⟨le_refl _, fun i d _ => rfl, fun j d h1 h2 => absurd (show j < st.betas.length from h2) (by omega)⟩
  | .cond (some fld) none v, st => by
      rw [buildCond_atomic_noop]
      exact ⟨le_refl _, fun i d _ => rfl, fun j d h1 h2 => absurd (show j < st.betas.length from h2) (by omega)⟩
  | .cond (some fld) (some opStr) v, st => by
      by_cases hg : (fld == "" || opStr == "") = true
      · rw [buildCond_atomic_guard fld opStr v st hg]
        exact ⟨le_refl _, fun i d _ => rfl, fun j d h1 h2 => absurd (show j < st.betas.length from h2) (by omega)⟩
      · have hg' : (fld == "" || opStr == "") = false := by
          cases hx : (fld == "" || opStr == "") with
          | false => rfl
          | true => exact absurd hx hg
        cases hop : Operator.ofString opStr with
        | none =>
            rw [buildCond_atomic_badop fld opStr v st hg' hop]
            exact ⟨le_refl _, fun i d _ => rfl, fun j d h1 h2 => absurd (show j < st.betas.length from h2) (by omega)⟩
        | some p =>
            cases hl : alphaLookup ⟨fld, p, v⟩ st.alphas with
            | some i =>
                rw [buildCond_atomic_shared fld opStr v st p i hg' hop hl]
                refine ⟨by simp, fun i d hi => List.getD_append _ _ _ _ hi, ?_⟩
                intro j d h1 h2
                simp only [List.length_append, List.length_singleton] at h2
                have hj : j = st.betas.length := by omega
                subst hj
                rw [List.getD_eq_getElem?_getD, List.getElem?_append_right (le_refl _)]
                simp
            | none =>
                rw [buildCond_atomic_fresh fld opStr v st p hg' hop hl]
                refine ⟨by simp, fun i d hi => List.getD_append _ _ _ _ hi, ?_⟩
                intro j d h1 h2
                simp only [List.length_append, List.length_singleton] at h2
                have hj : j = st.betas.length := by omega
                subst hj
                rw [List.getD_eq_getElem?_getD, List.getElem?_append_right (le_refl _)]
                simp
  | .group gop cs, st => by
      cases hcs : cs with
      | nil =>
          rw [buildCond_group_empty]
          refine ⟨by simp, fun i d hi => List.getD_append _ _ _ _ hi, ?_⟩
          intro j d h1 h2
          simp only [List.length_append, List.length_singleton] at h2
          have hj : j = st.betas.length := by omega
          subst hj
          rw [List.getD_eq_getElem?_getD, List.getElem?_append_right (le_refl _)]
          simp
      | cons c0 cs' =>
          have he : ((c0 :: cs').isEmpty) = false := rfl
          obtain ⟨hlen, hold, hnew⟩ := buildChildren_ext (c0 :: cs') st
          cases hcb : (buildChildren (c0 :: cs') st).1 with
          | nil =>
              rw [buildCond_group_nilbuilt gop (c0 :: cs') st he hcb]
              exact ⟨hlen, hold, hnew⟩
          | cons r0 rest =>
              have hr0 : st.betas.length ≤ r0 ∧ r0 < (buildChildren (c0 :: cs') st).2.betas.length := by
                have := buildChildren_roots (c0 :: cs') st r0 (by rw [hcb]; simp)
                exact this
              by_cases hnot : strUpper (gop.getD "AND") = "NOT"
              · rw [buildCond_group_not gop (c0 :: cs') st r0 rest he hcb hnot]
                refine ⟨by simp [setNegAt_length]; omega, ?_, ?_⟩
                · intro i d hi
                  simp only
                  rw [setNegAt_getD_ne _ _ _ _ (by omega)]
                  exact hold i d hi
                · intro j d h1 h2
                  simp only [setNegAt_length] at h2
                  by_cases hj : j = r0
                  · subst hj
                    simp only
                    rw [setNegAt_getD_self _ _ _ hr0.2]
                    exact hnew _ d h1 hr0.2
                  · simp only
                    rw [setNegAt_getD_ne _ _ _ _ hj]
                    exact hnew j d h1 h2
              · rw [buildCond_group_join gop (c0 :: cs') st r0 rest he hcb hnot]
                refine ⟨by simp; omega, ?_, ?_⟩
                · intro i d hi
                  simp only
                  rw [List.getD_append _ _ _ _ (by omega)]
                  exact hold i d hi
                · intro j d h1 h2
                  simp only [List.length_append, List.length_singleton] at h2
                  by_cases hj : j < (buildChildren (c0 :: cs') st).2.betas.length
                  · simp only
                    rw [List.getD_append _ _ _ _ hj]
                    exact hnew j d h1 hj
                  · have hj' : j = (buildChildren (c0 :: cs') st).2.betas.length := by omega
                    subst hj'
                    simp only
                    rw [List.getD_eq_getElem?_getD, List.getElem?_append_right (le_refl _)]
                    simp

/-- `buildChildren` extension, plus bounds for every returned root. -/
theorem buildChildren_ext : ∀ (cs : List Cond) (st : BSt),
    st.betas.length ≤ (buildChildren cs st).2.betas.length ∧
    (∀ i d, i < st.betas.length → (buildChildren cs st).2.betas.getD i d = st.betas.getD i d) ∧
    (∀ j d, st.betas.length ≤ j → j < (buildChildren cs st).2.betas.length →
      ((buildChildren cs st).2.betas.getD j d).terminal = none)
  | [], st => by
      rw [buildChildren_nil]
      exact ⟨le_refl _, fun i d _ => rfl, fun j d h1 h2 => absurd (show j < st.betas.length from h2) (by omega)⟩
  | c :: cs, st => by
      obtain ⟨hlen1, hold1, hnew1⟩ := buildCond_ext c st
      obtain ⟨hlen2, hold2, hnew2⟩ := buildChildren_ext cs (buildCond c st).2
      have hsnd : (buildChildren (c :: cs) st).2 = (buildChildren cs (buildCond c st).2).2 := by
        rw [buildChildren_cons]
      rw [hsnd]
      refine ⟨le_trans hlen1 hlen2, ?_, ?_⟩
      · intro i d hi
        rw [hold2 i d (by omega)]
        exact hold1 i d hi
      · intro j d h1 h2
        by_cases hj : j < (buildCond c st).2.betas.length
        · rw [hold2 j d hj]
          exact hnew1 j d h1 hj
        · exact hnew2 j d (by omega) h2

/-- Every root returned by `buildChildren` lies in the newly built block. -/
theorem buildChildren_roots : ∀ (cs : List Cond) (st : BSt) (r : Nat),
    r ∈ (buildChildren cs st).1 →
    st.betas.length ≤ r ∧ r < (buildChildren cs st).2.betas.length
  | [], st, r => by
      rw [buildChildren_nil]
      intro h
      simp at h
  | c :: cs, st, r => by
      intro hr
      rw [buildChildren_cons] at hr
      obtain ⟨hlen1, hold1, hnew1⟩ := buildCond_ext c st
      obtain ⟨hlen2, hold2, hnew2⟩ := buildChildren_ext cs (buildCond c st).2
      have hsnd : (buildChildren (c :: cs) st).2 = (buildChildren cs (buildCond c st).2).2 := by
        rw [buildChildren_cons]
      rw [hsnd]
      simp only at hr
      rcases hfst : (buildCond c st).1 with _ | rr
      · rw [hfst] at hr
        have := buildChildren_roots cs (buildCond c st).2 r hr
        exact ⟨le_trans hlen1 this.1, this.2⟩
      · rw [hfst] at hr
        rcases List.mem_cons.1 hr with rfl | hr'
        · refine ⟨?_, ?_⟩
          · exact buildCond_root_lb c st r hfst
          · have := buildCond_root_ub c st r hfst
            omega
        · have := buildChildren_roots cs (buildCond c st).2 r hr'
          exact ⟨le_trans hlen1 this.1, this.2⟩

/-- A returned root is at least the start of the block. -/
theorem buildCond_root_lb : ∀ (c : Cond) (st : BSt) (r : Nat),
    (buildCond c st).1 = some r → st.betas.length ≤ r
  | .empty, st, r => by rw [buildCond_empty]; intro h; simp at h
  | .unknown, st, r => by rw [buildCond_unknown]; intro h; simp at h
  | .cond none o v, st, r => by rw [buildCond_atomic_nofield]; intro h; simp at h
  | .cond (some fld) none v, st, r => by rw [buildCond_atomic_noop]; intro h; simp at h
  | .cond (some fld) (some opStr) v, st, r => by
      intro h
      by_cases hg : (fld == "" || opStr == "") = true
      · rw [buildCond_atomic_guard fld opStr v st hg] at h; simp at h
      · have hg' : (fld == "" || opStr == "") = false := by
          cases hx : (fld == "" || opStr == "") with
          | false => rfl
          | true => exact absurd hx hg
        cases hop : Operator.ofString opStr with
        | none => rw [buildCond_atomic_badop fld opStr v st hg' hop] at h; simp at h
        | some p =>
            cases hl : alphaLookup ⟨fld, p, v⟩ st.alphas with
            | some i =>
                rw [buildCond_atomic_shared fld opStr v st p i hg' hop hl] at h
                injection h with h'
                omega
            | none =>
                rw [buildCond_atomic_fresh fld opStr v st p hg' hop hl] at h
                injection h with h'
                omega
  | .group gop cs, st, r => by
      intro h
      cases hcs : cs with
      | nil =>
          subst hcs
          rw [buildCond_group_empty] at h
          injection h with h'
          omega
      | cons c0 cs' =>
          subst hcs
          have he : ((c0 :: cs').isEmpty) = false := rfl
          cases hcb : (buildChildren (c0 :: cs') st).1 with
          | nil => rw [buildCond_group_nilbuilt gop (c0 :: cs') st he hcb] at h; simp at h
          | cons r0 rest =>
              by_cases hnot : strUpper (gop.getD "AND") = "NOT"
              · rw [buildCond_group_not gop (c0 :: cs') st r0 rest he hcb hnot] at h
                injection h with h'
                rw [← h']
                exact (buildChildren_roots (c0 :: cs') st r0 (by rw [hcb]; simp)).1
              · rw [buildCond_group_join gop (c0 :: cs') st r0 rest he hcb hnot] at h
                injection h with h'
                subst h'
                exact le_trans (buildChildren_ext (c0 :: cs') st).1 (le_refl _)

/-- A returned root is inside the block. -/
theorem buildCond_root_ub : ∀ (c : Cond) (st : BSt) (r : Nat),
    (buildCond c st).1 = some r → r < (buildCond c st).2.betas.length
  | .empty, st, r => by rw [buildCond_empty]; intro h; simp at h
  | .unknown, st, r => by rw [buildCond_unknown]; intro h; simp at h
  | .cond none o v, st, r => by rw [buildCond_atomic_nofield]; intro h; simp at h
  | .cond (some fld) none v, st, r => by rw [buildCond_atomic_noop]; intro h; simp at h
  | .cond (some fld) (some opStr) v, st, r => by
      intro h
      by_cases hg : (fld == "" || opStr == "") = true
      · rw [buildCond_atomic_guard fld opStr v st hg] at h; simp at h
      · have hg' : (fld == "" || opStr == "") = false := by
          cases hx : (fld == "" || opStr == "") with
          | false => rfl
          | true => exact absurd hx hg
        cases hop : Operator.ofString opStr with
        | none => rw [buildCond_atomic_badop fld opStr v st hg' hop] at h; simp at h
        | some p =>
            cases hl : alphaLookup ⟨fld, p, v⟩ st.alphas with
            | some i =>
                rw [buildCond_atomic_shared fld opStr v st p i hg' hop hl] at h
                rw [buildCond_atomic_shared fld opStr v st p i hg' hop hl]
                injection h with h'
                subst h'
                simp
            | none =>
                rw [buildCond_atomic_fresh fld opStr v st p hg' hop hl] at h
                rw [buildCond_atomic_fresh fld opStr v st p hg' hop hl]
                injection h with h'
                subst h'
                simp
  | .group gop cs, st, r => by
      intro h
      cases hcs : cs with
      | nil =>
          subst hcs
          rw [buildCond_group_empty] at h
          rw [buildCond_group_empty]
          injection h with h'
          subst h'
          simp
      | cons c0 cs' =>
          subst hcs
          have he : ((c0 :: cs').isEmpty) = false := rfl
          cases hcb : (buildChildren (c0 :: cs') st).1 with
          | nil => rw [buildCond_group_nilbuilt gop (c0 :: cs') st he hcb] at h; simp at h
          | cons r0 rest =>
              by_cases hnot : strUpper (gop.getD "AND") = "NOT"
              · rw [buildCond_group_not gop (c0 :: cs') st r0 rest he hcb hnot] at h
                rw [buildCond_group_not gop (c0 :: cs') st r0 rest he hcb hnot]
                injection h with h'
                rw [← h']
                have := (buildChildren_roots (c0 :: cs') st r0 (by rw [hcb]; simp)).2
                simpa [setNegAt_length] using this
              · rw [buildCond_group_join gop (c0 :: cs') st r0 rest he hcb hnot] at h
                rw [buildCond_group_join gop (c0 :: cs') st r0 rest he hcb hnot]
                injection h with h'
                subst h'
                simp

end

/-- Agreement on everything `evalNodeCore` reads (negation flag and terminal
link may differ). -/
def agreeFlags (b1 b2 : BetaN) : Prop :=
  b1.joinType = b2.joinType ∧ b1.parentAlphas = b2.parentAlphas ∧
    b1.parentBetas = b2.parentBetas

theorem evalNode_xor (b : BetaN) (a : Nat → Bool) (m : List Bool) :
    evalNode b a m = xor (evalNodeCore b a m) b.negated := by
  unfold evalNode
  cases hb : b.negated <;> simp [hb]

theorem evalNodeCore_congr (b1 b2 : BetaN) (h : agreeFlags b1 b2) (a : Nat → Bool)
    (m : List Bool) : evalNodeCore b1 a m = evalNodeCore b2 a m := by
  unfold evalNodeCore
  rw [h.1, h.2.1, h.2.2]

/-- `B` carries the block `[lo, |new|)` of `new` faithfully, except that the
entries listed in `ex` (roots a later mutation may negate or link) only need
their core fields. -/
def blockAgrees (B new : List BetaN) (lo : Nat) (ex : List Nat) : Prop :=
  ∀ i, lo ≤ i → i < new.length →
    agreeFlags (B.getD i default) (new.getD i default) ∧
    (i ∉ ex → B.getD i default = new.getD i default)

/-- `aR` is the alpha phase of `alphas` on `ev`. -/
def alphaAgrees (aR : Nat → Bool) (alphas : List ACond) (ev : Event) : Prop :=
  ∀ i, i < alphas.length → aR i = (alphas.getD i default).evaluate ev

theorem getD_mem_of_lt {α : Type} (l : List α) (k : Nat) (d : α) (h : k < l.length) :
    l.getD k d ∈ l := by
  rw [List.getD_eq_getElem?_getD, List.getElem?_eq_getElem h]
  exact List.getElem_mem h

theorem agreeFlags_refl (b : BetaN) : agreeFlags b b := ⟨rfl, rfl, rfl⟩

theorem agreeFlags_of_eq {b1 b2 : BetaN} (h : b1 = b2) : agreeFlags b1 b2 := h ▸ agreeFlags_refl b1

theorem agreeFlags_trans {b1 b2 b3 : BetaN} (h1 : agreeFlags b1 b2) (h2 : agreeFlags b2 b3) :
    agreeFlags b1 b3 :=
  ⟨h1.1.trans h2.1, h1.2.1.trans h2.2.1, h1.2.2.trans h2.2.2⟩

mutual

/-- Semantics of one built condition subtree: its root beta memory is the
simple-path core value xor the arena's negation flag at the root, for any
arena `B` extending the built block (later rules may re-link flags only at
the returned root) and any alpha phase matching the built table. -/
theorem buildCond_sem : ∀ (c : Cond) (st : BSt), goodC c = true →
    ∃ r, (buildCond c st).1 = some r ∧
      ((buildCond c st).2.betas.getD r default).negated = builtNeg c ∧
      ∀ (B : List BetaN) (aR : Nat → Bool) (ev : Event),
        (buildCond c st).2.betas.length ≤ B.length →
        blockAgrees B (buildCond c st).2.betas st.betas.length [r] →
        alphaAgrees aR (buildCond c st).2.alphas ev →
        (computeMems B aR).getD r false
          = xor (semCore c ev) ((B.getD r default).negated)
  | .empty, st => by intro hg; simp [goodC] at hg
  | .unknown, st => by intro hg; simp [goodC] at hg
  | .cond none o v, st => by intro hg; simp [goodC] at hg
  | .cond (some fld) none v, st => by intro hg; simp [goodC] at hg
  | .cond (some fld) (some opStr) v, st => by
      intro hg
      cases hop : Operator.ofString opStr with
      | none => rw [goodC, hop] at hg; simp at hg
      | some p =>
          rw [goodC, hop] at hg
          simp only [Bool.and_eq_true, Bool.not_eq_true', beq_eq_false_iff_ne, ne_eq] at hg
          obtain ⟨hfne, hne1, hne2⟩ := hg
          have hg' : (fld == "" || opStr == "") = false := by
            have h1 : (fld == "") = false := by
              cases hx : fld == "" with
              | false => rfl
              | true => exact absurd (beq_iff_eq.1 hx) hfne
            have h2 : (opStr == "") = false := by
              cases hx : opStr == "" with
              | false => rfl
              | true =>
                  rw [beq_iff_eq.1 hx] at hop
                  simp [Operator.ofString] at hop
            rw [h1, h2]
            rfl
          cases hl : alphaLookup ⟨fld, p, v⟩ st.alphas with
          | some i =>
              have heq := buildCond_atomic_shared fld opStr v st p i hg' hop hl
              obtain ⟨hilt, hkm⟩ := alphaLookup_some hl
              refine ⟨st.betas.length, by rw [heq], ?_, ?_⟩
              · rw [heq]
                simp only
                rw [List.getD_eq_getElem?_getD, List.getElem?_append_right (le_refl _)]
                simp [builtNeg]
              · intro B aR ev hBlen hblock halpha
                rw [heq] at hBlen hblock halpha
                simp only at hBlen hblock halpha
                have hr : st.betas.length < B.length := by
                  simp [List.length_append] at hBlen; omega
                rw [computeMems_getD B aR st.betas.length hr, evalNode_xor]
                have hleaf : (st.betas ++ [(⟨"AND", [i], [], false, none⟩ : BetaN)]).getD
                    st.betas.length default = ⟨"AND", [i], [], false, none⟩ := by
                  rw [List.getD_eq_getElem?_getD, List.getElem?_append_right (le_refl _)]
                  simp
                have hag := (hblock st.betas.length (le_refl _) (by simp)).1
                rw [hleaf] at hag
                rw [evalNodeCore_congr _ _ hag]
                have hcore : evalNodeCore (⟨"AND", [i], [], false, none⟩ : BetaN) aR
                    ((computeMems B aR).take st.betas.length) = aR i := by
                  simp [evalNodeCore]
                rw [hcore, halpha i hilt]
                rw [← keyMatch_evaluate ⟨fld, p, v⟩ (st.alphas.getD i default) hkm ev]
                rw [atomic_agree fld opStr p v ev hop hne1 hne2]
                rfl
          | none =>
              have heq := buildCond_atomic_fresh fld opStr v st p hg' hop hl
              refine ⟨st.betas.length, by rw [heq], ?_, ?_⟩
              · rw [heq]
                simp only
                rw [List.getD_eq_getElem?_getD, List.getElem?_append_right (le_refl _)]
                simp [builtNeg]
              · intro B aR ev hBlen hblock halpha
                rw [heq] at hBlen hblock halpha
                simp only at hBlen hblock halpha
                have hr : st.betas.length < B.length := by
                  simp [List.length_append] at hBlen; omega
                rw [computeMems_getD B aR st.betas.length hr, evalNode_xor]
                have hleaf : (st.betas ++ [(⟨"AND", [st.alphas.length], [], false, none⟩ : BetaN)]).getD
                    st.betas.length default = ⟨"AND", [st.alphas.length], [], false, none⟩ := by
                  rw [List.getD_eq_getElem?_getD, List.getElem?_append_right (le_refl _)]
                  simp
                have hag := (hblock st.betas.length (le_refl _) (by simp)).1
                rw [hleaf] at hag
                rw [evalNodeCore_congr _ _ hag]
                have hcore : evalNodeCore (⟨"AND", [st.alphas.length], [], false, none⟩ : BetaN) aR
                    ((computeMems B aR).take st.betas.length) = aR st.alphas.length := by
                  simp [evalNodeCore]
                rw [hcore, halpha st.alphas.length (by simp)]
                have hac : (st.alphas ++ [(⟨fld, p, v⟩ : ACond)]).getD st.alphas.length default
                    = ⟨fld, p, v⟩ := by
                  rw [List.getD_eq_getElem?_getD, List.getElem?_append_right (le_refl _)]
                  simp
                rw [hac, atomic_agree fld opStr p v ev hop hne1 hne2]
                rfl
  | .group gop [], st => by
      intro _
      have heq := buildCond_group_empty gop st
      refine ⟨st.betas.length, by rw [heq], ?_, ?_⟩
      · rw [heq]
        simp only
        rw [List.getD_eq_getElem?_getD, List.getElem?_append_right (le_refl _)]
        simp [builtNeg]
      · intro B aR ev hBlen hblock halpha
        rw [heq] at hBlen hblock halpha
        simp only at hBlen hblock halpha
        have hr : st.betas.length < B.length := by
          simp [List.length_append] at hBlen; omega
        rw [computeMems_getD B aR st.betas.length hr, evalNode_xor]
        have hleaf : (st.betas ++ [(⟨"AND", [], [], false, none⟩ : BetaN)]).getD
            st.betas.length default = ⟨"AND", [], [], false, none⟩ := by
          rw [List.getD_eq_getElem?_getD, List.getElem?_append_right (le_refl _)]
          simp
        have hag := (hblock st.betas.length (le_refl _) (by simp)).1
        rw [hleaf] at hag
        rw [evalNodeCore_congr _ _ hag]
        have hcore : evalNodeCore (⟨"AND", [], [], false, none⟩ : BetaN) aR
            ((computeMems B aR).take st.betas.length) = true := by
          simp [evalNodeCore]
        rw [hcore]
        have hsc : semCore (.group gop []) ev = true := by
          simp [semCore, evalCond]
        rw [hsc]
  | .group gop (c0 :: cs'), st => by
      intro hg
      rw [goodC] at hg
      simp only [List.isEmpty_cons, Bool.false_eq_true, if_false, Bool.and_eq_true,
        Bool.or_eq_true, beq_iff_eq, Bool.not_eq_true', beq_eq_false_iff_ne, ne_eq] at hg
      obtain ⟨⟨hop3, hgl⟩, hnotc⟩ := hg
      have he : ((c0 :: cs').isEmpty) = false := rfl
      obtain ⟨hlenr, hflags, hsem⟩ := buildChildren_sem (c0 :: cs') st hgl
      cases hcb : (buildChildren (c0 :: cs') st).1 with
      | nil =>
          rw [hcb] at hlenr
          simp at hlenr
      | cons r0 rest =>
          have hr0b := buildChildren_roots (c0 :: cs') st r0 (by rw [hcb]; exact List.mem_cons_self r0 rest)
          have hc0good : goodC c0 = true := goodL_mem hgl c0 (List.mem_cons_self c0 cs')
          by_cases hnot : strUpper (gop.getD "AND") = "NOT"
          · -- NOT group: root is the first child's beta, flagged negated
            have heq := buildCond_group_not gop (c0 :: cs') st r0 rest he hcb hnot
            have ho : gop.getD "AND" = "NOT" := by
              rcases hop3 with (ho | ho) | ho
              · rw [ho] at hnot; exact absurd hnot (by decide)
              · rw [ho] at hnot; exact absurd hnot (by decide)
              · exact ho
            have hc0neg : builtNeg c0 = false := by
              rcases hnotc with h | h
              · exact absurd ho h
              · exact h
            refine ⟨r0, by rw [heq], ?_, ?_⟩
            · rw [heq]
              simp only
              rw [setNegAt_getD_self _ _ _ hr0b.2]
              simp [builtNeg, hnot]
            · intro B aR ev hBlen hblock halpha
              rw [heq] at hBlen hblock halpha
              simp only at hBlen hblock halpha
              have hBlen' : (buildChildren (c0 :: cs') st).2.betas.length ≤ B.length := by
                rw [setNegAt_length] at hBlen; exact hBlen
              have hblock' : blockAgrees B (buildChildren (c0 :: cs') st).2.betas
                  st.betas.length (buildChildren (c0 :: cs') st).1 := by
                intro i hlo hhi
                have hb := hblock i hlo (by rw [setNegAt_length]; exact hhi)
                by_cases hir : i = r0
                · subst hir
                  refine ⟨?_, ?_⟩
                  · refine agreeFlags_trans hb.1 ?_
                    rw [setNegAt_getD_self _ _ _ hr0b.2]
                    exact ⟨rfl, rfl, rfl⟩
                  · intro hx
                    exact absurd (by rw [hcb]; exact List.mem_cons_self i rest) hx
                · refine ⟨?_, ?_⟩
                  · refine agreeFlags_trans hb.1 ?_
                    rw [setNegAt_getD_ne _ _ _ _ hir]
                    exact agreeFlags_refl _
                  · intro hx
                    rw [← setNegAt_getD_ne (buildChildren (c0 :: cs') st).2.betas r0 i default hir]
                    exact hb.2 (by simpa using hir)
              have hmain := hsem B aR ev hBlen' hblock' halpha 0 (by simp)
              rw [hcb] at hmain
              simp only [List.getD_cons_zero] at hmain
              rw [hmain]
              have hc0 : semCore c0 ev = evalCond c0 ev := by
                rw [evalCond_eq_xor_semCore c0 ev hc0good, hc0neg, Bool.xor_false]
              rw [hc0, show semCore (.group gop (c0 :: cs')) ev = evalCond c0 ev from by
                    simp [semCore, hnot]]
          · -- AND/OR group: fresh join beta over the children roots
            have heq := buildCond_group_join gop (c0 :: cs') st r0 rest he hcb hnot
            have ho2 : gop.getD "AND" = "AND" ∨ gop.getD "AND" = "OR" := by
              rcases hop3 with (ho | ho) | ho
              · exact .inl ho
              · exact .inr ho
              · rw [ho] at hnot; exact absurd (by decide) hnot
            refine ⟨(buildChildren (c0 :: cs') st).2.betas.length, by rw [heq], ?_, ?_⟩
            · rw [heq]
              simp only
              rw [List.getD_eq_getElem?_getD, List.getElem?_append_right (le_refl _)]
              simp [builtNeg, hnot]
            · intro B aR ev hBlen hblock halpha
              rw [heq] at hBlen hblock halpha
              simp only at hBlen hblock halpha
              have hBlen' : (buildChildren (c0 :: cs') st).2.betas.length ≤ B.length := by
                simp [List.length_append] at hBlen; omega
              have hblock' : blockAgrees B (buildChildren (c0 :: cs') st).2.betas
                  st.betas.length (buildChildren (c0 :: cs') st).1 := by
                intro i hlo hhi
                have hb := hblock i hlo (by simp [List.length_append]; omega)
                have hgd : ((buildChildren (c0 :: cs') st).2.betas ++
                    [(⟨strUpper (gop.getD "AND"), [], r0 :: rest, false, none⟩ : BetaN)]).getD i default
                    = (buildChildren (c0 :: cs') st).2.betas.getD i default :=
                  List.getD_append _ _ _ _ hhi
                refine ⟨?_, ?_⟩
                · rw [← hgd]; exact hb.1
                · intro _
                  rw [← hgd]
                  exact hb.2 (by intro hm; rw [List.mem_singleton] at hm; omega)
              have hchild2 : ∀ k, k < (c0 :: cs').length →
                  (computeMems B aR).getD ((r0 :: rest).getD k 0) false
                    = evalCond ((c0 :: cs').getD k .empty) ev := by
                intro k hk
                have hmain := hsem B aR ev hBlen' hblock' halpha k hk
                rw [hcb] at hmain
                have hkl : k < (r0 :: rest).length := by
                  rw [show (r0 :: rest).length = (c0 :: cs').length from by rw [← hcb]; exact hlenr]
                  exact hk
                have hmem : (r0 :: rest).getD k 0 ∈ (buildChildren (c0 :: cs') st).1 := by
                  rw [hcb]; exact getD_mem_of_lt _ _ _ hkl
                have hrk := buildChildren_roots (c0 :: cs') st _ hmem
                have hBrk : B.getD ((r0 :: rest).getD k 0) default
                    = (buildChildren (c0 :: cs') st).2.betas.getD ((r0 :: rest).getD k 0) default := by
                  have hx := (hblock ((r0 :: rest).getD k 0) hrk.1
                      (by simp only [List.length_append, List.length_singleton]; omega)).2
                      (by intro hm; rw [List.mem_singleton] at hm; omega)
                  rw [hx, List.getD_append _ _ _ _ hrk.2]
                have hneg : ((buildChildren (c0 :: cs') st).2.betas.getD ((r0 :: rest).getD k 0) default).negated
                    = builtNeg ((c0 :: cs').getD k .empty) := by
                  have hx := hflags k hk
                  rw [hcb] at hx
                  exact hx
                rw [hmain, hBrk, hneg,
                  ← evalCond_eq_xor_semCore _ _ (goodL_mem hgl _ (getD_mem_of_lt _ _ _ hk))]
              have hrlt : (buildChildren (c0 :: cs') st).2.betas.length < B.length := by
                simp [List.length_append] at hBlen; omega
              rw [computeMems_getD B aR _ hrlt, evalNode_xor]
              have hnode : ((buildChildren (c0 :: cs') st).2.betas ++
                  [(⟨strUpper (gop.getD "AND"), [], r0 :: rest, false, none⟩ : BetaN)]).getD
                  (buildChildren (c0 :: cs') st).2.betas.length default
                  = ⟨strUpper (gop.getD "AND"), [], r0 :: rest, false, none⟩ := by
                rw [List.getD_eq_getElem?_getD, List.getElem?_append_right (le_refl _)]
                simp
              have hag := (hblock (buildChildren (c0 :: cs') st).2.betas.length
                  (le_trans (buildChildren_ext (c0 :: cs') st).1 (le_refl _))
                  (by simp)).1
              rw [hnode] at hag
              rw [evalNodeCore_congr _ _ hag]
              have hmapeq : (r0 :: rest).map (fun j =>
                    ((computeMems B aR).take ((buildChildren (c0 :: cs') st).2.betas.length)).getD j false)
                  = (r0 :: rest).map (fun j => (computeMems B aR).getD j false) := by
                apply List.map_congr_left
                intro j hj
                have hjb := buildChildren_roots (c0 :: cs') st j (by rw [hcb]; exact hj)
                exact take_getD _ _ _ _ hjb.2
              have hvals : (r0 :: rest).map (fun j => (computeMems B aR).getD j false)
                  = (c0 :: cs').map (fun cc => evalCond cc ev) := by
                apply List.ext_getElem
                · simp only [List.length_map]
                  rw [← hcb]; exact hlenr
                · intro k hk1 hk2
                  simp only [List.getElem_map]
                  have hk1' : k < (r0 :: rest).length := by simpa using hk1
                  have hk2' : k < (c0 :: cs').length := by simpa using hk2
                  rw [show (r0 :: rest)[k] = (r0 :: rest).getD k 0 from
                        (List.getD_eq_getElem _ _ hk1').symm,
                      show (c0 :: cs')[k] = (c0 :: cs').getD k .empty from
                        (List.getD_eq_getElem _ _ hk2').symm]
                  exact hchild2 k hk2'
              rcases ho2 with ho | ho
              · have hsem_eq : semCore (.group gop (c0 :: cs')) ev
                    = ((c0 :: cs').map (fun cc => evalCond cc ev)).all id := by
                  rw [show semCore (.group gop (c0 :: cs')) ev = evalCond (.group gop (c0 :: cs')) ev from by
                        simp [semCore, hnot]]
                  rw [show evalCond (.group gop (c0 :: cs')) ev = evalCondAll (c0 :: cs') ev from by
                        simp [evalCond, ho]]
                  exact evalCondAll_eq _ _
                rw [hsem_eq]
                simp only [evalNodeCore, List.map_nil, List.nil_append]
                rw [hmapeq, hvals]
                simp [ho, show strUpper "AND" = "AND" from by decide]
              · have hsem_eq : semCore (.group gop (c0 :: cs')) ev
                    = ((c0 :: cs').map (fun cc => evalCond cc ev)).any id := by
                  rw [show semCore (.group gop (c0 :: cs')) ev = evalCond (.group gop (c0 :: cs')) ev from by
                        simp [semCore, hnot]]
                  rw [show evalCond (.group gop (c0 :: cs')) ev = evalCondAny (c0 :: cs') ev from by
                        simp [evalCond, ho]]
                  exact evalCondAny_eq _ _
                rw [hsem_eq]
                simp only [evalNodeCore, List.map_nil, List.nil_append]
                rw [hmapeq, hvals]
                simp [ho, show strUpper "OR" = "OR" from by decide]

/-- Semantics of a built child list: every returned root carries its child's
semantics, under arena extension with exceptions only at the returned roots. -/
theorem buildChildren_sem : ∀ (cs : List Cond) (st : BSt), goodL cs = true →
    (buildChildren cs st).1.length = cs.length ∧
    (∀ k, k < cs.length →
      ((buildChildren cs st).2.betas.getD ((buildChildren cs st).1.getD k 0) default).negated
        = builtNeg (cs.getD k .empty)) ∧
    ∀ (B : List BetaN) (aR : Nat → Bool) (ev : Event),
      (buildChildren cs st).2.betas.length ≤ B.length →
      blockAgrees B (buildChildren cs st).2.betas st.betas.length (buildChildren cs st).1 →
      alphaAgrees aR (buildChildren cs st).2.alphas ev →
      ∀ k, k < cs.length →
        (computeMems B aR).getD ((buildChildren cs st).1.getD k 0) false
          = xor (semCore (cs.getD k .empty) ev)
              ((B.getD ((buildChildren cs st).1.getD k 0) default).negated)
  | [], st => by
      intro _
      rw [buildChildren_nil]
      refine ⟨rfl, ?_, ?_⟩
      · intro k hk; simp at hk
      · intro B aR ev _ _ _ k hk; simp at hk
  | c :: cs, st => by
      intro hgl
      have hgc : goodC c = true := goodL_mem hgl c (List.mem_cons_self c cs)
      have hgcs : goodL cs = true := by
        have hx := hgl
        simp only [goodL, Bool.and_eq_true] at hx
        exact hx.2
      obtain ⟨r, hsome, hneg1, hsem1⟩ := buildCond_sem c st hgc
      obtain ⟨hlen2, hflags2, hsem2⟩ := buildChildren_sem cs (buildCond c st).2 hgcs
      have hextc := buildCond_ext c st
      have hext2 := buildChildren_ext cs (buildCond c st).2
      have hfst : (buildChildren (c :: cs) st).1 = r :: (buildChildren cs (buildCond c st).2).1 := by
        rw [buildChildren_cons]
        simp only [hsome]
      have hsnd : (buildChildren (c :: cs) st).2 = (buildChildren cs (buildCond c st).2).2 := by
        rw [buildChildren_cons]
      have hrub := buildCond_root_ub c st r hsome
      have hrlb := buildCond_root_lb c st r hsome
      refine ⟨?_, ?_, ?_⟩
      · rw [hfst]
        simp [hlen2]
      · intro k hk
        rw [hfst, hsnd]
        cases k with
        | zero =>
            simp only [List.getD_cons_zero]
            rw [hext2.2.1 r default hrub]
            exact hneg1
        | succ k' =>
            simp only [List.getD_cons_succ]
            exact hflags2 k' (by simpa using hk)
      · intro B aR ev hBlen hblock halpha k hk
        rw [hsnd] at hBlen halpha
        rw [hfst, hsnd] at hblock
        cases k with
        | zero =>
            rw [hfst]
            simp only [List.getD_cons_zero]
            have hBlen1 : (buildCond c st).2.betas.length ≤ B.length :=
              le_trans hext2.1 hBlen
            have hblock1 : blockAgrees B (buildCond c st).2.betas st.betas.length [r] := by
              intro i hlo hhi
              have hi2 : i < (buildChildren cs (buildCond c st).2).2.betas.length :=
                lt_of_lt_of_le hhi hext2.1
              have hb := hblock i hlo hi2
              have hpres : (buildChildren cs (buildCond c st).2).2.betas.getD i default
                  = (buildCond c st).2.betas.getD i default := hext2.2.1 i default hhi
              refine ⟨?_, ?_⟩
              · rw [← hpres]; exact hb.1
              · intro hnm
                rw [← hpres]
                refine hb.2 ?_
                intro hm
                rcases List.mem_cons.1 hm with rfl | hm'
                · exact hnm (by simp)
                · have := buildChildren_roots cs (buildCond c st).2 i hm'
                  omega
            have halpha1 : alphaAgrees aR (buildCond c st).2.alphas ev := by
              intro i hi
              have hpre := (buildChildren_inv cs (buildCond c st).2).1
              have hx := halpha i (lt_of_lt_of_le hi hpre.length_le)
              rwa [getD_of_leading hpre i default hi] at hx
            exact hsem1 B aR ev hBlen1 hblock1 halpha1
        | succ k' =>
            rw [hfst]
            simp only [List.getD_cons_succ]
            have hblock2 : blockAgrees B (buildChildren cs (buildCond c st).2).2.betas
                (buildCond c st).2.betas.length (buildChildren cs (buildCond c st).2).1 := by
              intro i hlo hhi
              have hb := hblock i (le_trans hextc.1 hlo) hhi
              refine ⟨hb.1, ?_⟩
              intro hnm
              refine hb.2 ?_
              intro hm
              rcases List.mem_cons.1 hm with rfl | hm'
              · omega
              · exact hnm hm'
            have hx := hsem2 B aR ev hBlen hblock2 halpha k' (by simpa using hk)
            exact hx

end

/-! ## The path-equivalence theorem (claim C1, amended) -/

/-- The terminal `_add_rule` creates for a rule (all key reads `.get`-style,
exact for rules that carry the keys). -/
def termOfRule (r : RuleInput) : Terminal :=
  ⟨r.idK.getD 0, r.nameK.getD ("Rule " ++ toString (r.idK.getD 0)),
   r.priorityK.getD 0, r.actionK.getD (.str "")⟩

/-- A rule dict both paths handle identically: all five keys present and a
well-formed condition tree. -/
def goodRule (r : RuleInput) : Bool :=
  r.idK.isSome && r.nameK.isSome && r.priorityK.isSome && r.actionK.isSome &&
    (match r.conditionK with
     | some c => goodC c
     | none => false)

theorem condTruthy_of_good (c : Cond) (h : goodC c = true) : condTruthy c = true := by
  cases c <;> simp_all [goodC, condTruthy]

/-- The builder state after `_add_rule` registers the terminal, before the
condition network is built. -/
def stAfterTerm (r : RuleInput) (st : BSt) : BSt :=
  ⟨st.alphas, st.betas, st.shared, dictInsert st.terminals (r.idK.getD 0) (termOfRule r)⟩

/-- Phase-3 collection from an arena zipped with its memories. -/
def collectTerms (betas : List BetaN) (mems : List Bool) : List Terminal :=
  (betas.zip mems).filterMap fun bm =>
    match bm.1.terminal with
    | some t => if bm.2 then some t else none
    | none => none

theorem matchedOf_collect (net : Network) (ev : Event) :
    matchedOf net ev
      = collectTerms net.betas (computeMems net.betas (alphaResultsOf net ev)) := rfl

theorem collectTerms_nil_of_none : ∀ (blk : List BetaN) (m : List Bool),
    (∀ b ∈ blk, b.terminal = none) → collectTerms blk m = []
  | [], m, _ => rfl
  | b :: bs, m, h => by
      cases m with
      | nil => rfl
      | cons m0 m' =>
          have hb : b.terminal = none := h b (List.mem_cons_self b bs)
          simp only [collectTerms, List.zip_cons_cons, List.filterMap_cons, hb]
          exact collectTerms_nil_of_none bs m' (fun x hx => h x (List.mem_cons_of_mem b hx))

theorem collectTerms_single : ∀ (blk : List BetaN) (m : List Bool) (j : Nat) (t : Terminal),
    j < blk.length → m.length = blk.length →
    (blk.getD j default).terminal = some t →
    (∀ i, i < blk.length → i ≠ j → (blk.getD i default).terminal = none) →
    collectTerms blk m = if m.getD j false then [t] else []
  | [], m, j, t => by intro hj; simp at hj
  | b :: bs, m, j, t => by
      intro hj hm hterm hothers
      cases m with
      | nil => simp at hm
      | cons m0 m' =>
          cases j with
          | zero =>
              simp only [List.getD_cons_zero] at hterm
              simp only [collectTerms, List.zip_cons_cons, List.filterMap_cons, hterm]
              have hrest : collectTerms bs m' = [] := by
                apply collectTerms_nil_of_none
                intro x hx
                obtain ⟨i, hi, hxi⟩ := List.mem_iff_getElem.1 hx
                have := hothers (i + 1) (by simpa using hi) (by omega)
                simp only [List.getD_cons_succ] at this
                rw [← hxi, ← List.getD_eq_getElem bs default hi]
                exact this
              have hrest' : List.filterMap (fun bm : BetaN × Bool =>
                  match bm.1.terminal with
                  | some t => if bm.2 then some t else none
                  | none => none) (bs.zip m') = [] := hrest
              cases m0 <;> simp [hrest']
          | succ j' =>
              have hb : b.terminal = none := by
                have := hothers 0 (by simp) (by omega)
                simpa using this
              simp only [collectTerms, List.zip_cons_cons, List.filterMap_cons, hb]
              have := collectTerms_single bs m' j' t (by simpa using hj) (by simpa using hm)
                (by simpa using hterm)
                (fun i hi hij => by
                  have := hothers (i + 1) (by simpa using hi) (by omega)
                  simpa using this)
              simpa [collectTerms] using this

theorem collectTerms_append (A B : List BetaN) (m : List Bool)
    (hm : m.length = A.length + B.length) :
    collectTerms (A ++ B) m
      = collectTerms A (m.take A.length) ++ collectTerms B (m.drop A.length) := by
  have hsplit : m = m.take A.length ++ m.drop A.length := (List.take_append_drop _ _).symm
  have hlen : A.length = (m.take A.length).length := by
    rw [List.length_take]
    omega
  unfold collectTerms
  rw [← List.filterMap_append]
  congr 1
  conv_lhs => rw [hsplit]
  exact List.zip_append hlen

theorem prefix_of_getD (l1 l2 : List BetaN) (hlen : l1.length ≤ l2.length)
    (h : ∀ i d, i < l1.length → l2.getD i d = l1.getD i d) : l1 <+: l2 := by
  rw [List.prefix_iff_eq_take]
  apply List.ext_getElem
  · rw [List.length_take]
    omega
  · intro i hi1 hi2
    have hx := h i default hi1
    rw [List.getD_eq_getElem _ _ hi1, List.getD_eq_getElem l2 default (by omega)] at hx
    rw [List.getElem_take]
    exact hx.symm

theorem drop_getD (l : List Bool) (n i : Nat) (d : Bool) :
    (l.drop n).getD i d = l.getD (n + i) d := by
  rw [List.getD_eq_getElem?_getD, List.getD_eq_getElem?_getD, List.getElem?_drop]

theorem drop_getD_beta (l : List BetaN) (n i : Nat) (d : BetaN) :
    (l.drop n).getD i d = l.getD (n + i) d := by
  rw [List.getD_eq_getElem?_getD, List.getD_eq_getElem?_getD, List.getElem?_drop]

/-- The real alpha phase satisfies the agreement interface of the builder
semantics. -/
theorem alphaAgrees_alphaResultsOf (net : Network) (ev : Event) :
    alphaAgrees (alphaResultsOf net ev) net.alphas ev := by
  intro i hi
  unfold alphaResultsOf
  rw [List.get?_eq_getElem?, List.getElem?_eq_getElem hi]
  rw [List.getD_eq_getElem _ _ hi]

theorem goodRule_parts (r : RuleInput) (h : goodRule r = true) :
    r.idK = some (r.idK.getD 0) ∧ r.conditionK = some (r.conditionK.getD .empty) ∧
    goodC (r.conditionK.getD .empty) = true ∧
    r.nameK = some (r.nameK.getD "") ∧ r.priorityK = some (r.priorityK.getD 0) ∧
    r.actionK = some (r.actionK.getD (.str "")) := by
  unfold goodRule at h
  simp only [Bool.and_eq_true, Option.isSome_iff_exists] at h
  obtain ⟨⟨⟨⟨⟨i0, hid⟩, n0, hnm⟩, p0, hpr⟩, a0, hac⟩, he⟩ := h
  cases hcc : r.conditionK with
  | none => rw [hcc] at he; simp at he
  | some c0 =>
      rw [hcc] at he
      exact ⟨by simp [hid], by simp [hcc], by simp [hcc]; exact he,
             by simp [hnm], by simp [hpr], by simp [hac]⟩

/-- `_add_rule` on a fully keyed rule: register the terminal, build the
condition network, link the terminal onto the root. -/
theorem addRule_good_eq (r : RuleInput) (st : BSt) (hg : goodRule r = true) :
    addRule r st =
      (match (buildCond (r.conditionK.getD .empty) (stAfterTerm r st)).1 with
       | some rb => .ok { (buildCond (r.conditionK.getD .empty) (stAfterTerm r st)).2 with
            betas := setTerminalAt (buildCond (r.conditionK.getD .empty) (stAfterTerm r st)).2.betas
                      rb (termOfRule r) }
       | none => .ok (buildCond (r.conditionK.getD .empty) (stAfterTerm r st)).2) := by
  obtain ⟨hid, hcc, hgc, _, _, _⟩ := goodRule_parts r hg
  have hct : condTruthy (r.conditionK.getD .empty) = true := condTruthy_of_good _ hgc
  unfold addRule
  rw [hid]
  simp only
  rw [if_pos hct]
  rfl

theorem addAllRules_sem : ∀ (rs : List RuleInput) (st : BSt),
    (∀ r ∈ rs, goodRule r = true) →
    ∃ stF, addAllRules rs st = (none, stF) ∧
      st.alphas <+: stF.alphas ∧ st.betas <+: stF.betas ∧
      ∀ (aR : Nat → Bool) (ev : Event),
        alphaAgrees aR stF.alphas ev →
        collectTerms stF.betas (computeMems stF.betas aR)
          = collectTerms st.betas (computeMems st.betas aR)
            ++ ((rs.filter fun r => evalCond (r.conditionK.getD .empty) ev).map termOfRule)
  | [], st => by
      intro _
      refine ⟨st, rfl, List.prefix_rfl, List.prefix_rfl, ?_⟩
      intro aR ev _
      simp
  | r :: rest, st => by
      intro hgood
      have hgr : goodRule r = true := hgood r (List.mem_cons_self r rest)
      obtain ⟨hid, hcc, hgc, hnm, hpr, hac⟩ := goodRule_parts r hgr
      obtain ⟨rb, hsome, hneg1, hsem1⟩ :=
        buildCond_sem (r.conditionK.getD .empty) (stAfterTerm r st) hgc
      have hrub := buildCond_root_ub _ _ _ hsome
      have hrlb' : st.betas.length ≤ rb :=
        buildCond_root_lb _ (stAfterTerm r st) _ hsome
      have hext := buildCond_ext (r.conditionK.getD .empty) (stAfterTerm r st)
      have hext1 : st.betas.length
          ≤ (buildCond (r.conditionK.getD .empty) (stAfterTerm r st)).2.betas.length := hext.1
      have hext21 : ∀ i d, i < st.betas.length →
          (buildCond (r.conditionK.getD .empty) (stAfterTerm r st)).2.betas.getD i d
            = st.betas.getD i d := hext.2.1
      have hext22 : ∀ j d, st.betas.length ≤ j →
          j < (buildCond (r.conditionK.getD .empty) (stAfterTerm r st)).2.betas.length →
          ((buildCond (r.conditionK.getD .empty) (stAfterTerm r st)).2.betas.getD j d).terminal
            = none := hext.2.2
      have haddr : addRule r st =
          .ok { (buildCond (r.conditionK.getD .empty) (stAfterTerm r st)).2 with
                betas := setTerminalAt
                  (buildCond (r.conditionK.getD .empty) (stAfterTerm r st)).2.betas
                  rb (termOfRule r) } := by
        rw [addRule_good_eq r st hgr, hsome]
      obtain ⟨stF, hrest, hpreA, hpreB, hcoll⟩ :=
        addAllRules_sem rest
          { (buildCond (r.conditionK.getD .empty) (stAfterTerm r st)).2 with
            betas := setTerminalAt
              (buildCond (r.conditionK.getD .empty) (stAfterTerm r st)).2.betas
              rb (termOfRule r) }
          (fun x hx => hgood x (List.mem_cons_of_mem r hx))
      have hpre1 : st.betas <+:
          setTerminalAt (buildCond (r.conditionK.getD .empty) (stAfterTerm r st)).2.betas
            rb (termOfRule r) := by
        apply prefix_of_getD
        · rw [setTerminalAt_length]; exact hext1
        · intro i d hi
          rw [setTerminalAt_getD_ne _ _ _ _ _ (by omega)]
          exact hext21 i d hi
      refine ⟨stF, ?_, ?_, ?_, ?_⟩
      · simp only [addAllRules]
        rw [haddr]
        exact hrest
      · exact ((buildCond_inv (r.conditionK.getD .empty) (stAfterTerm r st)).1).trans hpreA
      · exact hpre1.trans hpreB
      · intro aR ev hal
        have halb : alphaAgrees aR
            (buildCond (r.conditionK.getD .empty) (stAfterTerm r st)).2.alphas ev := by
          intro i hi
          have hpre : (buildCond (r.conditionK.getD .empty) (stAfterTerm r st)).2.alphas
              <+: stF.alphas := hpreA
          have hx := hal i (lt_of_lt_of_le hi hpre.length_le)
          rwa [getD_of_leading hpre i default hi] at hx
        rw [hcoll aR ev hal]
        obtain ⟨tail, htail⟩ := hpre1
        have htlen : st.betas.length + tail.length
            = (buildCond (r.conditionK.getD .empty) (stAfterTerm r st)).2.betas.length := by
          have hx := congrArg List.length htail
          simpa [setTerminalAt_length] using hx
        have htailD : ∀ i d, tail.getD i d = (st.betas ++ tail).getD (st.betas.length + i) d := by
          intro i d
          have hx := drop_getD_beta (st.betas ++ tail) st.betas.length i d
          rw [List.drop_left] at hx
          exact hx
        have hBlen : (buildCond (r.conditionK.getD .empty) (stAfterTerm r st)).2.betas.length
            ≤ (st.betas ++ tail).length := by
          rw [List.length_append]; omega
        have hblockB : blockAgrees (st.betas ++ tail)
            (buildCond (r.conditionK.getD .empty) (stAfterTerm r st)).2.betas
            st.betas.length [rb] := by
          intro i hlo hhi
          have hgd : (st.betas ++ tail).getD i default
              = (setTerminalAt (buildCond (r.conditionK.getD .empty) (stAfterTerm r st)).2.betas
                  rb (termOfRule r)).getD i default := by
            rw [htail]
          by_cases hir : i = rb
          · subst hir
            refine ⟨?_, ?_⟩
            · rw [hgd, setTerminalAt_getD_self _ _ _ _ hrub]
              exact ⟨rfl, rfl, rfl⟩
            · intro hx
              exact absurd (List.mem_singleton_self _) hx
          · refine ⟨?_, ?_⟩
            · rw [hgd, setTerminalAt_getD_ne _ _ _ _ _ hir]
              exact agreeFlags_refl _
            · intro _
              rw [hgd, setTerminalAt_getD_ne _ _ _ _ _ hir]
        have hmem0 := hsem1 (st.betas ++ tail) aR ev hBlen hblockB halb
        have hnegrb : ((st.betas ++ tail).getD rb default).negated
            = builtNeg (r.conditionK.getD .empty) := by
          rw [htail, setTerminalAt_getD_self _ _ _ _ hrub]
          exact hneg1
        have hval : (computeMems (st.betas ++ tail) aR).getD rb false
            = evalCond (r.conditionK.getD .empty) ev := by
          rw [hmem0, hnegrb, ← evalCond_eq_xor_semCore _ _ hgc]
        have hjlt : rb - st.betas.length < tail.length := by omega
        have hmlen : ((computeMems (st.betas ++ tail) aR).drop st.betas.length).length
            = tail.length := by
          rw [List.length_drop, computeMems_length]
          simp
        have hterm : (tail.getD (rb - st.betas.length) default).terminal
            = some (termOfRule r) := by
          rw [htailD, (by omega : st.betas.length + (rb - st.betas.length) = rb), htail,
              setTerminalAt_getD_self _ _ _ _ hrub]
        have hothers : ∀ i, i < tail.length → i ≠ rb - st.betas.length →
            (tail.getD i default).terminal = none := by
          intro i hi hij
          rw [htailD, htail, setTerminalAt_getD_ne _ _ _ _ _ (by omega)]
          exact hext22 (st.betas.length + i) default (by omega) (by omega)
        have hmid : collectTerms tail ((computeMems (st.betas ++ tail) aR).drop st.betas.length)
            = if evalCond (r.conditionK.getD .empty) ev then [termOfRule r] else [] := by
          rw [collectTerms_single tail _ (rb - st.betas.length) (termOfRule r) hjlt hmlen
                hterm hothers,
              drop_getD, (by omega : st.betas.length + (rb - st.betas.length) = rb), hval]
        rw [← htail]
        rw [collectTerms_append st.betas tail _ (by rw [computeMems_length]; simp)]
        rw [computeMems_take st.betas tail aR, hmid, List.filter_cons]
        cases hev : evalCond (r.conditionK.getD .empty) ev
        · simp [List.append_assoc]
        · simp [List.append_assoc]

/-- The `matched_rules` entry built from a terminal. -/
def mrOfTerm (t : Terminal) : MatchedRule := ⟨t.ruleId, t.ruleName, t.rulePriority, t.ruleAction⟩

theorem except_bind_ok {α β : Type} (a : α) (f : α → Except PyErr β) :
    (Except.ok a >>= f) = f a := rfl

theorem simpleEvalAux_ok : ∀ (rs : List RuleInput) (ev : Event) (ms : List MatchedRule)
    (ord : List Int), (∀ r ∈ rs, goodRule r = true) →
    simpleEvalAux rs ev ms ord = .ok
      (ms ++ ((rs.filter fun r => evalCond (r.conditionK.getD .empty) ev).map
          fun r => mrOfTerm (termOfRule r)),
       ord ++ ((rs.filter fun r => evalCond (r.conditionK.getD .empty) ev).map
          fun r => (termOfRule r).ruleId))
  | [], ev, ms, ord => by intro _; simp [simpleEvalAux]
  | r :: rs, ev, ms, ord => by
      intro hgood
      have hgr := hgood r (List.mem_cons_self r rs)
      obtain ⟨hid, hcc, hgc, hnm, hpr, hac⟩ := goodRule_parts r hgr
      have hih := fun ms' ord' =>
        simpleEvalAux_ok rs ev ms' ord' (fun x hx => hgood x (List.mem_cons_of_mem r hx))
      rw [simpleEvalAux, hcc]
      simp only [requireK, except_bind_ok, List.filter_cons]
      cases hev : evalCond (r.conditionK.getD .empty) ev with
      | false =>
          simp only [Bool.false_eq_true, if_false]
          exact hih ms ord
      | true =>
          simp only [if_true]
          rw [hid, hnm, hpr, hac]
          simp only [requireK, except_bind_ok]
          have hmr : (⟨r.idK.getD 0, r.nameK.getD "", r.priorityK.getD 0,
              r.actionK.getD (.str "")⟩ : MatchedRule) = mrOfTerm (termOfRule r) := by
            simp only [mrOfTerm, termOfRule]
            rw [hnm]
            simp
          rw [hmr, hih (ms ++ [mrOfTerm (termOfRule r)]) (ord ++ [r.idK.getD 0])]
          simp [List.append_assoc, mrOfTerm, termOfRule]

theorem calcHash_ne_cleared (rules : List RuleInput) :
    (calcHash rules == emptyNetwork.rulesHash) = false := by
  cases hx : calcHash rules == emptyNetwork.rulesHash with
  | false => rfl
  | true =>
      have h : calcHash rules = "" := beq_iff_eq.mp hx
      have hlen := congrArg String.length h
      simp [calcHash, String.length_append] at hlen
      exact absurd hlen.1.1 (by decide)

/-- C1 (amended): for rule dicts carrying all five keys and a well-formed
condition tree (non-empty, known comparison operators other than
exists/not_exists, uppercase `AND`/`OR`/`NOT` connectives, no directly nested
`NOT`), delivered sorted by priority descending (as the rule cache does), and
an event with hashable values, the RETE path and the linear fallback of
`OptimizedReteEngine.evaluate` return identical `matched_rules` and
`execution_order`. -/
theorem C1_amended_rete_eq_simple (rules : List RuleInput) (ev : Event)
    (hgood : ∀ r ∈ rules, goodRule r = true)
    (hsorted : rules.Pairwise (fun a b => b.priorityK.getD 0 ≤ a.priorityK.getD 0))
    (hhash : eventHashable ev = true) :
    reteEvalPath rules ev = simpleEvalPath rules ev := by
  obtain ⟨stF, hF, hA, hB, hColl⟩ := addAllRules_sem rules (clearedSt emptyNetwork) hgood
  have hcompile : (ReteNetwork.compile emptyNetwork rules).1
      = ⟨stF.alphas, stF.betas, stF.terminals, stF.shared, calcHash rules⟩ := by
    unfold ReteNetwork.compile
    rw [if_neg (by rw [calcHash_ne_cleared rules]; exact Bool.false_ne_true)]
    rw [hF]
  have hmatched : matchedOf ⟨stF.alphas, stF.betas, stF.terminals, stF.shared, calcHash rules⟩ ev
      = ((rules.filter fun r => evalCond (r.conditionK.getD .empty) ev).map termOfRule) := by
    rw [matchedOf_collect]
    have hx := hColl
      (alphaResultsOf ⟨stF.alphas, stF.betas, stF.terminals, stF.shared, calcHash rules⟩ ev) ev
      (alphaAgrees_alphaResultsOf _ ev)
    simp only
    rw [hx]
    simp [clearedSt, collectTerms]
  have hts : ((rules.filter fun r => evalCond (r.conditionK.getD .empty) ev).map
      termOfRule).Pairwise (fun a b => b.rulePriority ≤ a.rulePriority) := by
    rw [List.pairwise_map]
    exact hsorted.filter _
  unfold reteEvalPath
  rw [hcompile]
  unfold ReteNetwork.evaluate
  rw [hhash]
  simp only [Bool.not_true, Bool.false_eq_true, if_false]
  rw [hmatched, pySortDesc_of_sorted _ hts]
  rw [simpleEvalPath, simpleEvalAux_ok rules ev [] [] hgood]
  simp [Except.map, resultOfTerminals, mrOfTerm, List.map_map, Function.comp]

/-- The spec's fraud-detection scenario rules, fully keyed and
priority-sorted. -/
def c1Rules : List RuleInput :=
  [⟨some 1, some "Fraud", some 10, some (.str "block"),
    some (.group (some "AND")
      [.cond (some "amount") (some ">") (.int 10000),
       .cond (some "country") (some "==") (.str "NG")])⟩,
   ⟨some 2, some "Large", some 5, some (.str "review"),
    some (.cond (some "amount") (some ">") (.int 1000))⟩]

def c1Event : Event := [("amount", .int 15000), ("country", .str "NG")]

/-- C1 (witness): the amended equivalence at the spec's scenario. -/
theorem C1_witness :
    ((∀ r ∈ c1Rules, goodRule r = true) ∧
     c1Rules.Pairwise (fun a b => b.priorityK.getD 0 ≤ a.priorityK.getD 0) ∧
     eventHashable c1Event = true) ∧
    reteEvalPath c1Rules c1Event = simpleEvalPath c1Rules c1Event :=
  ⟨⟨by decide, by decide, by decide⟩,
   C1_amended_rete_eq_simple c1Rules c1Event (by decide) (by decide) (by decide)⟩
